import Mathlib

/-!
Verification development for the english-japanese-transcriber repository.

Shallow embedding of the two algorithmic cores:
* `src/src/audio/segmenter.py` — `SegmentationConfig`, `AudioSegmenter` with its
  three strategies (silence / fixed-length / energy);
* `src/src/transcription/processor.py` — `TextProcessor` with the Japanese,
  English and fallback normalization pipelines.

Durations and offsets are milliseconds modelled as `Int` (Python ints).
A segment is a contiguous sub-range of the source buffer, kept as global
(start, stop) offsets; `pydub` slicing `audio[a:b]` corresponds to the
sub-range `[a, b)`.
-/

namespace Transcriber

/-- A contiguous sub-range of an audio buffer, in milliseconds. -/
structure Seg where
  start : Int
  stop : Int
deriving DecidableEq, Repr

/-- Length in milliseconds of a segment (`len(audio_segment)` in pydub). -/
def Seg.len (s : Seg) : Int := s.stop - s.start

/-- `SegmentationConfig` from segmenter.py (a plain dataclass: construction
itself performs no validation; `AudioSegmenter.__init__` validates). -/
structure SegmentationConfig where
  min_silence_len : Int := 700
  silence_thresh : Int := -16
  keep_silence : Int := 200
  segment_duration : Int := 10000
  min_segment_length : Int := 1000
  max_segment_length : Int := 30000
  overlap : Int := 0
deriving DecidableEq, Repr

/-- Python exception values relevant to the segmenter:
`ValueError` and `AudioSegmentationError`, each carrying its message. -/
inductive PyError where
  | valueError : String → PyError
  | segmentationError : String → PyError
deriving DecidableEq, Repr

/-- `AudioSegmenter._validate_config`: the checks, in source order, each
raising `ValueError` with the source's message on the first violation. -/
def validate_config (c : SegmentationConfig) : Except PyError Unit :=
  if c.min_silence_len ≤ 0 then
    .error (.valueError ("min_silence_len must be positive"))
  else if c.segment_duration ≤ 0 then
    .error (.valueError ("segment_duration must be positive"))
  else if c.min_segment_length ≤ 0 then
    .error (.valueError ("min_segment_length must be positive"))
  else if c.max_segment_length ≤ c.min_segment_length then
    .error (.valueError ("max_segment_length must be greater than min_segment_length"))
  else if c.overlap < 0 then
    .error (.valueError ("overlap must be non-negative"))
  else if c.overlap ≥ c.segment_duration then
    .error (.valueError ("overlap must be less than segment_duration"))
  else
    .ok ()

/-- The conjunction of all the invariants `validate_config` checks. -/
def ConfigOK (c : SegmentationConfig) : Prop :=
  0 < c.min_silence_len ∧ 0 < c.segment_duration ∧ 0 < c.min_segment_length ∧
    c.min_segment_length < c.max_segment_length ∧ 0 ≤ c.overlap ∧
    c.overlap < c.segment_duration

instance (c : SegmentationConfig) : Decidable (ConfigOK c) := by
  unfold ConfigOK; infer_instance

/-- The `while start + segment_duration <= total_duration` loop of
`split_into_fixed_length_segments`, returning the collected segments and the
final value of `start`.  The Python loop terminates iff `step ≥ 1` (which
`_validate_config` guarantees); the `fuel` parameter is a structural bound on
the number of iterations, chosen large enough by the caller
(`(hi - start).toNat + 1` iterations always suffice when `step ≥ 1`). -/
def fixedLoopGo (S minLen step hi : Int) : Nat → Int → List Seg × Int
  | 0, start => ([], start)
  | fuel + 1, start =>
    if start + S ≤ hi then
      -- segment = audio_segment[start:start + segment_duration]
      let seg : Seg := ⟨start, start + S⟩
      let rest := fixedLoopGo S minLen step hi fuel (start + step)
      -- if len(segment) >= min_segment_length: segments.append(segment)
      (if minLen ≤ seg.len then seg :: rest.1 else rest.1, rest.2)
    else
      ([], start)

/-- `AudioSegmenter.split_into_fixed_length_segments`, acting on the sub-range
`[lo, hi)` of the source buffer (the method is also invoked on chunks during
silence-mode re-splitting, hence the explicit sub-range). -/
def split_into_fixed_length_segments (c : SegmentationConfig) (lo hi : Int) :
    List Seg :=
  let total := hi - lo
  if total ≤ c.segment_duration then [⟨lo, hi⟩]
  else
    let step := c.segment_duration - c.overlap
    let r := fixedLoopGo c.segment_duration c.min_segment_length step hi
      ((hi - lo).toNat + 1) lo
    let remaining := hi - r.2
    if remaining ≥ c.min_segment_length then
      -- last_segment = audio[-segment_duration:] if remaining >= segment_duration
      --                else audio[start:]
      let last : Seg :=
        if remaining ≥ c.segment_duration then ⟨hi - c.segment_duration, hi⟩
        else ⟨r.2, hi⟩
      r.1 ++ [last]
    else r.1

instance {ε α : Type} [DecidableEq ε] [DecidableEq α] : DecidableEq (Except ε α) :=
  fun x y =>
    match x, y with
    | .ok a, .ok b => if h : a = b then .isTrue (by rw [h]) else .isFalse (by simp [h])
    | .error a, .error b => if h : a = b then .isTrue (by rw [h]) else .isFalse (by simp [h])
    | .ok _, .error _ => .isFalse (by simp)
    | .error _, .ok _ => .isFalse (by simp)

/-- The audio buffer as `segment_by_energy` observes it: its duration in ms
and, for each 100 ms window offset `i`, the (non-negative, integer) RMS value
`audio_segment[i:i+100].rms` that pydub computes from the samples. -/
structure AudioBuffer where
  duration : Int
  rms : Int → Nat

/-- The `for i, energy in enumerate(rms_values)` scan of `segment_by_energy`:
state `st = some s` models `in_segment = True` with `start = s`;
`st = none` models `in_segment = False`.  After the list is exhausted the
still-open run is closed at `D = len(audio_segment)`. -/
def energyLoop (minLen D : Int) (thr : ℚ) : List ℚ → Int → Option Int → List Seg
  | [], _, none => []
  | [], _, some s => if D - s ≥ minLen then [⟨s, D⟩] else []
  | v :: rest, i, none =>
    if v > thr then energyLoop minLen D thr rest (i + 1) (some (i * 100))
    else energyLoop minLen D thr rest (i + 1) none
  | v :: rest, i, some s =>
    if v ≤ thr then
      (if i * 100 - s ≥ minLen then [⟨s, i * 100⟩] else []) ++
        energyLoop minLen D thr rest (i + 1) none
    else energyLoop minLen D thr rest (i + 1) (some s)

/-- The per-window RMS list of `segment_by_energy`:
`for i in range(0, len(audio_segment), window_size)` with `window_size = 100`,
i.e. one value per window start `0, 100, 200, …` below `duration`. -/
def rmsValues (buf : AudioBuffer) : List ℚ :=
  (List.range ((buf.duration.toNat + 99) / 100)).map fun k => (buf.rms (100 * k) : ℚ)

/-- `AudioSegmenter.segment_by_energy`.  Real-number normalization is modelled
with exact rationals.  Every exception raised inside the method's `try` block
(including its own `ValueError` for an out-of-range threshold, and numpy's
error when `rms_values.max()` is taken of an empty array) is caught and
re-raised as `AudioSegmentationError` with the wrapping message. -/
def segment_by_energy (c : SegmentationConfig) (buf : AudioBuffer) (thr : ℚ) :
    Except PyError (List Seg) :=
  if ¬ (0 ≤ thr ∧ thr ≤ 1) then
    .error (.segmentationError
      ("Error segmenting audio by energy: energy_threshold must be between 0 and 1"))
  else
    let vals := rmsValues buf
    match vals.max? with
    | none =>
      .error (.segmentationError
        ("Error segmenting audio by energy: zero-size array to reduction operation maximum which has no identity"))
    | some m =>
      let normed := if m > 0 then vals.map (· / m) else vals
      .ok (energyLoop c.min_segment_length buf.duration thr normed 0 none)

/-- `AudioSegmenter.split_on_silence` (the method of segmenter.py, not the
pydub helper of the same name).  The two pydub calls are external
collaborators: `nonsilentRanges` stands for the result of
`pydub.silence.detect_nonsilent` and `chunks` for the result of
`pydub.silence.split_on_silence` on the same buffer, provided as inputs.
What the repository's code adds is: the whole-buffer fallback when no
non-silent range was detected, and the post-filter that drops chunks shorter
than `min_segment_length` and re-splits chunks longer than
`max_segment_length` with the fixed-length strategy (the loop body of that
post-filter is `silencePostFilter` below). -/
def silencePostFilter (c : SegmentationConfig) (ch : Seg) : List Seg :=
  -- if len(segment) < min_segment_length: continue
  if ch.len < c.min_segment_length then []
  -- if len(segment) > max_segment_length: extend with fixed-length re-split
  else if ch.len > c.max_segment_length then
    split_into_fixed_length_segments c ch.start ch.stop
  else [ch]

/-- See `silencePostFilter`: the repository method itself. -/
def split_on_silence_method (c : SegmentationConfig) (D : Int)
    (nonsilentRanges : List Seg) (chunks : List Seg) : List Seg :=
  if nonsilentRanges = [] then [⟨0, D⟩]
  else chunks.flatMap (silencePostFilter c)

/-- `AudioSegmenter.segment_audio`: string-dispatch over the three strategies.
`"energy"` is invoked with the default `energy_threshold = 0.2`.  The final
`else` raises `ValueError(f"Invalid segmentation method: ...")`, which the
`except (AudioSegmentationError, ValueError)` clause re-raises unchanged. -/
def segment_audio (c : SegmentationConfig) (buf : AudioBuffer)
    (nonsilentRanges : List Seg) (chunks : List Seg) (method : String) :
    Except PyError (List Seg) :=
  if method = "silence" then
    .ok (split_on_silence_method c buf.duration nonsilentRanges chunks)
  else if method = "fixed" then
    .ok (split_into_fixed_length_segments c 0 buf.duration)
  else if method = "energy" then
    segment_by_energy c buf (2 / 10)
  else
    .error (.valueError ("Invalid segmentation method: " ++ method))

/-! ## Text normalization (processor.py)

Text is `List Char`.  `mojimoji.han_to_zen` and `jaconv.h2z` are external
libraries; they are modelled from the spec (§4.3 step 1: "Convert half-width
ASCII letters/digits and half-width katakana to their full-width
equivalents") as code-point maps, with the source's own comment ("excluding
spaces") fixing that the half-width space is not converted. -/

/-- The whitespace class shared by Python's `str.split`, `str.strip` and
`re`'s `\s` on `str`: the ASCII whitespace controls, the information
separators, NEL, NBSP and the Unicode space separators including the
ideographic space U+3000. -/
def isPySpace (c : Char) : Bool :=
  let n := c.toNat
  (0x9 ≤ n && n ≤ 0xD) || n = 0x20 || (0x1C ≤ n && n ≤ 0x1F) || n = 0x85 ||
    n = 0xA0 || n = 0x1680 || (0x2000 ≤ n && n ≤ 0x200A) || n = 0x2028 ||
    n = 0x2029 || n = 0x202F || n = 0x205F || n = 0x3000

/-- Modelled from the spec: `mojimoji.han_to_zen(text, digit=True, ascii=True,
kana=False)` — every half-width printable ASCII character except the space
(code points 0x21–0x7E) is mapped to its full-width form (0xFF01–0xFF5E). -/
def han_to_zen (c : Char) : Char :=
  if 0x21 ≤ c.toNat ∧ c.toNat ≤ 0x7E then Char.ofNat (c.toNat + 0xFEE0) else c

/-- Modelled from the spec: the half-width → full-width code-point table of
`jaconv.h2z(text, kana=True, ascii=False, digit=False)` for the half-width
katakana block U+FF61–U+FF9F (punctuation, small kana, kana, sound marks). -/
def kanaPairs : List (Nat × Nat) :=
  [(0xFF61, 0x3002), (0xFF62, 0x300C), (0xFF63, 0x300D), (0xFF64, 0x3001),
   (0xFF65, 0x30FB), (0xFF66, 0x30F2), (0xFF67, 0x30A1), (0xFF68, 0x30A3),
   (0xFF69, 0x30A5), (0xFF6A, 0x30A7), (0xFF6B, 0x30A9), (0xFF6C, 0x30E3),
   (0xFF6D, 0x30E5), (0xFF6E, 0x30E7), (0xFF6F, 0x30C3), (0xFF70, 0x30FC),
   (0xFF71, 0x30A2), (0xFF72, 0x30A4), (0xFF73, 0x30A6), (0xFF74, 0x30A8),
   (0xFF75, 0x30AA), (0xFF76, 0x30AB), (0xFF77, 0x30AD), (0xFF78, 0x30AF),
   (0xFF79, 0x30B1), (0xFF7A, 0x30B3), (0xFF7B, 0x30B5), (0xFF7C, 0x30B7),
   (0xFF7D, 0x30B9), (0xFF7E, 0x30BB), (0xFF7F, 0x30BD), (0xFF80, 0x30BF),
   (0xFF81, 0x30C1), (0xFF82, 0x30C4), (0xFF83, 0x30C6), (0xFF84, 0x30C8),
   (0xFF85, 0x30CA), (0xFF86, 0x30CB), (0xFF87, 0x30CC), (0xFF88, 0x30CD),
   (0xFF89, 0x30CE), (0xFF8A, 0x30CF), (0xFF8B, 0x30D2), (0xFF8C, 0x30D5),
   (0xFF8D, 0x30D8), (0xFF8E, 0x30DB), (0xFF8F, 0x30DE), (0xFF90, 0x30DF),
   (0xFF91, 0x30E0), (0xFF92, 0x30E1), (0xFF93, 0x30E2), (0xFF94, 0x30E4),
   (0xFF95, 0x30E6), (0xFF96, 0x30E8), (0xFF97, 0x30E9), (0xFF98, 0x30EA),
   (0xFF99, 0x30EB), (0xFF9A, 0x30EC), (0xFF9B, 0x30ED), (0xFF9C, 0x30EF),
   (0xFF9D, 0x30F3), (0xFF9E, 0x309B), (0xFF9F, 0x309C)]

/-- Modelled from the spec: per-character application of the `jaconv.h2z`
kana table; characters outside U+FF61–U+FF9F are left unchanged. -/
def h2z_kana (c : Char) : Char :=
  match kanaPairs.find? (fun p => p.1 = c.toNat) with
  | some p => Char.ofNat p.2
  | none => c

/-- `self.bracket_map` of `TextProcessor.__init__`, in insertion order. -/
def bracketPairs : List (Char × Char) :=
  [('(', '（'), (')', '）'), ('[', '［'), (']', '］'),
   (Char.ofNat 0x7B, '｛'), (Char.ofNat 0x7D, '｝'),
   ('「', '「'), ('」', '」'), ('【', '【'), ('】', '】')]

/-- The bracket-normalization loop of `process_japanese_text`:
`for western, japanese in self.bracket_map.items(): text = text.replace(...)`
(each pattern is a single character, so `str.replace` is a per-character
substitution). -/
def applyBrackets (t : List Char) : List Char :=
  bracketPairs.foldl (fun acc p => acc.map fun c => if c = p.1 then p.2 else c) t

/-- `re.sub(p + '\s*', p, text)` for a single non-whitespace character `p`
(the compiled `japanese_period_pattern` / `japanese_comma_pattern`): delete
any run of whitespace immediately following an occurrence of `p`.  The flag
records whether we are inside such a run. -/
def removeSpacesAfterGo (p : Char) : Bool → List Char → List Char
  | _, [] => []
  | afterP, c :: rest =>
    if afterP ∧ isPySpace c then removeSpacesAfterGo p true rest
    else if c = p then c :: removeSpacesAfterGo p true rest
    else c :: removeSpacesAfterGo p false rest

/-- See `removeSpacesAfterGo`. -/
def removeSpacesAfter (p : Char) (t : List Char) : List Char :=
  removeSpacesAfterGo p false t

/-- Python `str.split()` (no separator): the maximal runs of
non-whitespace characters, in order; `acc` is the reversed current run. -/
def pySplitGo (acc : List Char) : List Char → List (List Char)
  | [] => if acc = [] then [] else [acc.reverse]
  | c :: rest =>
    if isPySpace c then
      if acc = [] then pySplitGo [] rest else acc.reverse :: pySplitGo [] rest
    else pySplitGo (c :: acc) rest

/-- Python `text.split()`. -/
def pySplit (t : List Char) : List (List Char) := pySplitGo [] t

/-- Python `' '.join(pieces)`: the pieces joined with single ASCII spaces. -/
def joinSp : List (List Char) → List Char
  | [] => []
  | [tok] => tok
  | tok :: rest => tok ++ ' ' :: joinSp rest

/-- Python `text.strip()`: remove leading and trailing whitespace. -/
def stripPy (t : List Char) : List Char :=
  ((t.dropWhile isPySpace).reverse.dropWhile isPySpace).reverse

/-- `re.sub(r'\.{2,}', '...', text)`: replace each maximal run of two or
more periods by exactly three.  State `st`: 0 = outside a run, 1 = one
pending period seen, 2 = inside a run already collapsed to `...`. -/
def collapsePeriodsGo (st : Nat) : List Char → List Char
  | [] => if st = 1 then ['.'] else []
  | c :: rest =>
    if c = '.' then
      if st = 0 then collapsePeriodsGo 1 rest
      else if st = 1 then '.' :: '.' :: '.' :: collapsePeriodsGo 2 rest
      else collapsePeriodsGo 2 rest
    else
      if st = 1 then '.' :: c :: collapsePeriodsGo 0 rest
      else c :: collapsePeriodsGo 0 rest

/-- See `collapsePeriodsGo`. -/
def collapsePeriods (t : List Char) : List Char := collapsePeriodsGo 0 t

/-- `TextProcessor.process_japanese_text`, stage by stage in source order:
han→zen conversion, half→full-width kana, bracket normalization, whitespace
removal after `。` and after `、`, `' '.join(text.split())`, replacement of
each ASCII space by the ideographic space U+3000, and a final `strip()`. -/
def process_japanese_text (t : List Char) : List Char :=
  let t1 := t.map han_to_zen
  let t2 := t1.map h2z_kana
  let t3 := applyBrackets t2
  let t4 := removeSpacesAfter '。' t3
  let t5 := removeSpacesAfter '、' t4
  let t6 := joinSp (pySplit t5)
  let t7 := t6.map fun c => if c = ' ' then '　' else c
  stripPy t7

/-- The fallback branch of `TextProcessor.process_text` for language codes
other than `"ja"` and `"en"`: `' '.join(text.split())`, then
`re.sub(r'\.{2,}', '...', text).strip()`. -/
def fallback_normalize (t : List Char) : List Char :=
  stripPy (collapsePeriods (joinSp (pySplit t)))

/-- Half-width ASCII in the range mojimoji converts (0x21–0x7E, the printable
characters except the space). -/
def isHanConvertible (c : Char) : Bool := 0x21 ≤ c.toNat && c.toNat ≤ 0x7E

/-- Half-width katakana block 0xFF61–0xFF9F (jaconv's kana domain). -/
def isHalfKana (c : Char) : Bool := 0xFF61 ≤ c.toNat && c.toNat ≤ 0xFF9F

/-- Half-width ASCII letters and digits (the characters C7's postcondition
says cannot survive Japanese normalization). -/
def isHalfAlnum (c : Char) : Bool :=
  (0x30 ≤ c.toNat && c.toNat ≤ 0x39) || (0x41 ≤ c.toNat && c.toNat ≤ 0x5A) ||
    (0x61 ≤ c.toNat && c.toNat ≤ 0x7A)

/-- "No whitespace immediately follows an occurrence of `p`": the relation
between adjacent characters used to state the 。/、 spacing postcondition. -/
def NoWsAfter (p : Char) (t : List Char) : Prop :=
  List.Chain' (fun a b => a = p → isPySpace b = false) t

/-- `TextProcessor.process_text`.  The English pipeline depends on NLTK's
Punkt sentence tokenizer (an external, statistically trained collaborator),
so the whole English branch is abstracted as the parameter `engFn`; no claim
in scope depends on its behaviour. -/
def process_text (engFn : List Char → List Char) (t : List Char)
    (language_code : List Char) : List Char :=
  if t = [] then t
  else if language_code = "ja".toList then process_japanese_text t
  else if language_code = "en".toList then engFn t
  else fallback_normalize t

/-! ### Concrete configurations used by counterexamples and witnesses -/

def cfgC1x : SegmentationConfig :=
  { segment_duration := 1000, min_segment_length := 1500, max_segment_length := 2000 }

def cfgC1w : SegmentationConfig :=
  { segment_duration := 1000, min_segment_length := 500, max_segment_length := 2000, overlap := 200 }

def cfgC2x : SegmentationConfig :=
  { min_silence_len := 1, segment_duration := 10, min_segment_length := 1, max_segment_length := 2 }

def cfgC3bad : SegmentationConfig := { min_silence_len := -5 }

/-! ## Theorems -/

theorem validate_config_ok_iff (c : SegmentationConfig) :
    validate_config c = .ok () ↔ ConfigOK c := by
  unfold validate_config ConfigOK
  by_cases h1 : c.min_silence_len ≤ 0 <;>
    by_cases h2 : c.segment_duration ≤ 0 <;>
      by_cases h3 : c.min_segment_length ≤ 0 <;>
        by_cases h4 : c.max_segment_length ≤ c.min_segment_length <;>
          by_cases h5 : c.overlap < 0 <;>
            by_cases h6 : c.overlap ≥ c.segment_duration <;>
              simp [h1, h2, h3, h4, h5, h6] <;> omega

/-! ## The fixed-length loop: characterization -/

/-- Closed form of the `while` loop of `split_into_fixed_length_segments`:
with positive `segment_duration` and positive step, and enough fuel, the loop
performs the least `n` iterations with `start + n*step + S > hi`, emitting the
window at every visited start iff `minLen ≤ S` (each loop window has length
exactly `S`), and leaves `start` at `start + n*step`. -/
theorem fixedLoopGo_spec (S minLen step hi : Int) (hS : 0 < S) (hstep : 0 < step) :
    ∀ (fuel : Nat) (start : Int), (hi - start).toNat < fuel →
    ∃ n : Nat,
      (∀ k : Nat, k < n → start + k * step + S ≤ hi) ∧
      hi < start + n * step + S ∧
      fixedLoopGo S minLen step hi fuel start =
        ((if minLen ≤ S then
            (List.range n).map fun k => ⟨start + k * step, start + k * step + S⟩
          else []), start + n * step) := by
  intro fuel
  induction fuel with
  | zero => intro start h; omega
  | succ f ih =>
    intro start hf
    by_cases hg : start + S ≤ hi
    · have hlt : (hi - (start + step)).toNat < f := by omega
      obtain ⟨n, hall, hend, heq⟩ := ih (start + step) hlt
      refine ⟨n + 1, ?_, ?_, ?_⟩
      · intro k hk
        cases k with
        | zero => simpa using hg
        | succ j =>
          have hj := hall j (by omega)
          push_cast at hj ⊢
          linarith
      · push_cast at hend ⊢
        linarith
      · simp only [fixedLoopGo, if_pos hg, heq, Seg.len, add_sub_cancel_left,
          Prod.mk.injEq]
        constructor
        · split
          · rw [List.range_succ_eq_map, List.map_cons, List.map_map]
            simp only [List.cons.injEq]
            constructor
            · simp
            · refine List.map_congr_left fun k _ => ?_
              simp only [Function.comp_apply, Seg.mk.injEq]
              push_cast
              constructor <;> ring
          · rfl
        · push_cast
          ring
    · refine ⟨0, by omega, by simpa using hg, ?_⟩
      simp [fixedLoopGo, hg]

/-- A convenient bundle: the step of a valid config is positive. -/
theorem step_pos {c : SegmentationConfig} (h : ConfigOK c) :
    0 < c.segment_duration - c.overlap := by
  obtain ⟨-, -, -, -, -, h6⟩ := h
  omega

/-- Closed form of `split_into_fixed_length_segments` on a range longer than
`segment_duration`, for a valid config: the loop windows (each of length
exactly `segment_duration`, kept iff `min_segment_length ≤ segment_duration`)
followed by the remainder window `[lo + n*step, hi)` iff the remainder is at
least `min_segment_length`.  The `audio[-segment_duration:]` branch of the
source is dead here: after the loop the remainder is always `< S`. -/
theorem split_fixed_spec (c : SegmentationConfig) (h : ConfigOK c)
    (lo hi : Int) (hlt : c.segment_duration < hi - lo) :
    ∃ n : Nat, 0 < n ∧
      (∀ k : Nat, k < n →
        lo + k * (c.segment_duration - c.overlap) + c.segment_duration ≤ hi) ∧
      hi < lo + n * (c.segment_duration - c.overlap) + c.segment_duration ∧
      split_into_fixed_length_segments c lo hi =
        (if c.min_segment_length ≤ c.segment_duration then
          (List.range n).map fun k =>
            ⟨lo + k * (c.segment_duration - c.overlap),
             lo + k * (c.segment_duration - c.overlap) + c.segment_duration⟩
         else []) ++
        (if c.min_segment_length ≤ hi - (lo + n * (c.segment_duration - c.overlap))
         then [⟨lo + n * (c.segment_duration - c.overlap), hi⟩] else []) := by
  obtain ⟨n, hall, hend, heq⟩ :=
    fixedLoopGo_spec c.segment_duration c.min_segment_length
      (c.segment_duration - c.overlap) hi h.2.1 (step_pos h)
      ((hi - lo).toNat + 1) lo (by omega)
  refine ⟨n, ?_, hall, hend, ?_⟩
  · rcases Nat.eq_zero_or_pos n with hn | hn
    · subst hn
      simp only [Nat.cast_zero, zero_mul, add_zero] at hend
      omega
    · exact hn
  · have h1 : (fixedLoopGo c.segment_duration c.min_segment_length
        (c.segment_duration - c.overlap) hi ((hi - lo).toNat + 1) lo).1 =
        (if c.min_segment_length ≤ c.segment_duration then
          (List.range n).map fun k =>
            ⟨lo + k * (c.segment_duration - c.overlap),
             lo + k * (c.segment_duration - c.overlap) + c.segment_duration⟩
         else []) := by rw [heq]
    have h2 : (fixedLoopGo c.segment_duration c.min_segment_length
        (c.segment_duration - c.overlap) hi ((hi - lo).toNat + 1) lo).2 =
        lo + n * (c.segment_duration - c.overlap) := by rw [heq]
    have hdead : ¬ (c.segment_duration ≤
        hi - (lo + (n : Int) * (c.segment_duration - c.overlap))) := by omega
    have houter : ¬ (hi - lo ≤ c.segment_duration) := by omega
    by_cases hrem :
        c.min_segment_length ≤ hi - (lo + (n : Int) * (c.segment_duration - c.overlap))
    · simp only [split_into_fixed_length_segments, h1, h2, ge_iff_le,
        if_neg houter, if_pos hrem, if_neg hdead]
    · simp only [split_into_fixed_length_segments, h1, h2, ge_iff_le,
        if_neg houter, if_neg hrem, List.append_nil]

/-- On a range no longer than `segment_duration` the whole range is returned
as the single segment (this includes a zero-length range). -/
theorem split_fixed_short (c : SegmentationConfig) (lo hi : Int)
    (hle : hi - lo ≤ c.segment_duration) :
    split_into_fixed_length_segments c lo hi = [⟨lo, hi⟩] := by
  unfold split_into_fixed_length_segments
  rw [if_pos hle]

/-- Every segment the fixed-length strategy returns on `[lo, hi)` stays
inside the range, has length at most `max_segment_length` (when
`segment_duration ≤ max_segment_length`), and has length at least
`min_segment_length` except for the single whole-range segment of the
`total ≤ segment_duration` path. -/
theorem split_fixed_all (c : SegmentationConfig) (h : ConfigOK c)
    (hminS : c.min_segment_length ≤ c.segment_duration)
    (hSmax : c.segment_duration ≤ c.max_segment_length)
    (lo hi : Int) (hlohi : lo ≤ hi) :
    ∀ s ∈ split_into_fixed_length_segments c lo hi,
      lo ≤ s.start ∧ s.stop ≤ hi ∧ s.len ≤ c.max_segment_length ∧
        (c.min_segment_length ≤ s.len ∨
          (hi - lo ≤ c.segment_duration ∧ s = ⟨lo, hi⟩)) := by
  by_cases hshort : hi - lo ≤ c.segment_duration
  · rw [split_fixed_short c lo hi hshort]
    intro s hs
    rcases List.mem_singleton.mp hs with rfl
    refine ⟨le_refl _, le_refl _, ?_, Or.inr ⟨hshort, rfl⟩⟩
    simp only [Seg.len]
    omega
  · obtain ⟨n, hn, hall, hend, heq⟩ := split_fixed_spec c h lo hi (by omega)
    rw [if_pos hminS] at heq
    intro s hs
    rw [heq] at hs
    rcases List.mem_append.mp hs with hs | hs
    · obtain ⟨k, hk, rfl⟩ := List.mem_map.mp hs
      have hk0 : (0 : Int) ≤ k * (c.segment_duration - c.overlap) :=
        mul_nonneg (Int.natCast_nonneg k) (le_of_lt (step_pos h))
      have hstop := hall k (List.mem_range.mp hk)
      refine ⟨?_, hstop, ?_, Or.inl ?_⟩
      · show lo ≤ lo + (k : Int) * (c.segment_duration - c.overlap)
        linarith
      · simp only [Seg.len, add_sub_cancel_left]
        exact hSmax
      · simp only [Seg.len, add_sub_cancel_left]
        exact hminS
    · split at hs
      · rename_i hrem
        rcases List.mem_singleton.mp hs with rfl
        have hk0 : (0 : Int) ≤ n * (c.segment_duration - c.overlap) :=
          mul_nonneg (Int.natCast_nonneg n) (le_of_lt (step_pos h))
        refine ⟨?_, le_refl _, ?_, Or.inl ?_⟩
        · show lo ≤ lo + (n : Int) * (c.segment_duration - c.overlap)
          linarith
        · simp only [Seg.len]
          linarith
        · simp only [Seg.len]
          linarith
      · exact absurd hs (List.not_mem_nil s)

/-- The fixed-length strategy returns its segments in nondecreasing order of
start time. -/
theorem split_fixed_sorted (c : SegmentationConfig) (h : ConfigOK c)
    (lo hi : Int) :
    List.Pairwise (fun a b => a.start ≤ b.start)
      (split_into_fixed_length_segments c lo hi) := by
  by_cases hshort : hi - lo ≤ c.segment_duration
  · rw [split_fixed_short c lo hi hshort]
    simp
  · obtain ⟨n, hn, hall, hend, heq⟩ := split_fixed_spec c h lo hi (by omega)
    rw [heq]
    rw [List.pairwise_append]
    refine ⟨?_, ?_, ?_⟩
    · split
      · refine List.Pairwise.map _ ?_ (List.pairwise_lt_range n)
        intro a b hab
        simp only []
        have hm : (a : Int) * (c.segment_duration - c.overlap) ≤
            b * (c.segment_duration - c.overlap) :=
          mul_le_mul_of_nonneg_right (by exact_mod_cast le_of_lt hab)
            (le_of_lt (step_pos h))
        linarith
      · simp
    · split
      · simp
      · simp
    · intro a ha b hb
      split at ha
      · obtain ⟨k, hk, rfl⟩ := List.mem_map.mp ha
        split at hb
        · rcases List.mem_singleton.mp hb with rfl
          have hm : (k : Int) * (c.segment_duration - c.overlap) ≤
              n * (c.segment_duration - c.overlap) :=
            mul_le_mul_of_nonneg_right
              (by exact_mod_cast le_of_lt (List.mem_range.mp hk))
              (le_of_lt (step_pos h))
          simp only []
          linarith
        · exact absurd hb (List.not_mem_nil b)
      · exact absurd ha (List.not_mem_nil a)

/-- Facts about the silence-mode post-filter applied to one pydub chunk:
every produced segment stays inside the chunk and (for a valid config with
`min_segment_length ≤ segment_duration ≤ max_segment_length`) has length
within `[min_segment_length, max_segment_length]`. -/
theorem silencePostFilter_facts (c : SegmentationConfig) (h : ConfigOK c)
    (hminS : c.min_segment_length ≤ c.segment_duration)
    (hSmax : c.segment_duration ≤ c.max_segment_length)
    (ch : Seg) (hch : ch.start ≤ ch.stop) :
    ∀ s ∈ silencePostFilter c ch,
      ch.start ≤ s.start ∧ s.stop ≤ ch.stop ∧
        c.min_segment_length ≤ s.len ∧ s.len ≤ c.max_segment_length := by
  intro s hs
  unfold silencePostFilter at hs
  split at hs
  · exact absurd hs (List.not_mem_nil s)
  · split at hs
    · rename_i hlen hlong
      have hfacts := split_fixed_all c h hminS hSmax ch.start ch.stop hch s hs
      obtain ⟨h1, h2, h3, h4⟩ := hfacts
      refine ⟨h1, h2, ?_, h3⟩
      rcases h4 with h4 | ⟨h4, -⟩
      · exact h4
      · simp only [Seg.len, gt_iff_lt] at hlong
        omega
    · rename_i hlen hlong
      rcases List.mem_singleton.mp hs with rfl
      simp only [gt_iff_lt, not_lt] at hlen hlong
      exact ⟨le_refl _, le_refl _, by omega, hlong⟩

/-- The silence-mode post-filter yields its per-chunk segments in
nondecreasing start order. -/
theorem silencePostFilter_sorted (c : SegmentationConfig) (h : ConfigOK c)
    (ch : Seg) :
    List.Pairwise (fun a b => a.start ≤ b.start) (silencePostFilter c ch) := by
  unfold silencePostFilter
  split
  · simp
  · split
    · exact split_fixed_sorted c h ch.start ch.stop
    · simp

/-- C1, counterexample: the config `cfgC1x` (`segment_duration = 1000`,
`min_segment_length = 1500`, `max_segment_length = 2000`, `overlap = 0`)
passes validation, and on a buffer of duration `2500` the loop guard
`start + S ≤ D` holds at `start = 0`, yet fixed-length segmentation emits no
window at all (every loop window has length `S = 1000 < min_segment_length`
and is skipped, and the `500` ms remainder is below `min_segment_length`):
the claim's unconditional "emits windows while `start + S ≤ D`" is false. -/
theorem c1_counterexample :
    validate_config cfgC1x = .ok () ∧
    (0 : Int) + 1000 ≤ 2500 ∧
    split_into_fixed_length_segments cfgC1x 0 2500 = [] := by
  exact ⟨by decide, by decide, by decide⟩

/-- C1 (amended): for a valid config with
`min_segment_length ≤ segment_duration` — without which every loop window,
having length exactly `segment_duration`, is skipped by the
`len(segment) >= min_segment_length` filter — fixed-length segmentation of a
buffer of duration `D`: if `D ≤ S` the whole buffer is the single segment;
otherwise the emitted windows are `[k*(S-O), k*(S-O)+S]` for exactly those
`k` with `k*(S-O) + S ≤ D` (consecutive start deltas `S - O`), followed by a
final window that ends exactly at `D` iff the remainder
`D - n*(S-O)` is at least `min_segment_length` (it is discarded entirely
otherwise), and every returned segment has length `≤ S`. -/
theorem c1_fixed_segmentation_amended (c : SegmentationConfig) (h : ConfigOK c)
    (hminS : c.min_segment_length ≤ c.segment_duration) (D : Int) :
    (D ≤ c.segment_duration →
      split_into_fixed_length_segments c 0 D = [⟨0, D⟩]) ∧
    (c.segment_duration < D →
      ∃ n : Nat, 0 < n ∧
        (∀ k : Nat, k < n →
          k * (c.segment_duration - c.overlap) + c.segment_duration ≤ D) ∧
        D < n * (c.segment_duration - c.overlap) + c.segment_duration ∧
        split_into_fixed_length_segments c 0 D =
          ((List.range n).map fun k =>
            ⟨k * (c.segment_duration - c.overlap),
             k * (c.segment_duration - c.overlap) + c.segment_duration⟩) ++
          (if c.min_segment_length ≤ D - n * (c.segment_duration - c.overlap)
           then [⟨n * (c.segment_duration - c.overlap), D⟩] else []) ∧
        (∀ s ∈ split_into_fixed_length_segments c 0 D,
          s.len ≤ c.segment_duration)) := by
  constructor
  · intro hle
    exact split_fixed_short c 0 D (by omega)
  · intro hlt
    obtain ⟨n, hn, hall, hend, heq⟩ := split_fixed_spec c h 0 D (by omega)
    rw [if_pos hminS] at heq
    simp only [zero_add] at hall hend heq
    refine ⟨n, hn, hall, hend, heq, ?_⟩
    intro s hs
    rw [heq] at hs
    rcases List.mem_append.mp hs with hs | hs
    · obtain ⟨k, -, rfl⟩ := List.mem_map.mp hs
      simp [Seg.len]
    · split at hs
      · rcases List.mem_singleton.mp hs with rfl
        simp only [Seg.len]
        omega
      · exact absurd hs (List.not_mem_nil s)


/-- Witness for `c1_fixed_segmentation_amended` at a concrete input:
`S = 1000`, `O = 200`, `min = 500`, `D = 500` (the `D ≤ S` branch). -/
theorem c1_fixed_segmentation_amended_witness :
    split_into_fixed_length_segments cfgC1w 0 500 = [⟨0, 500⟩] :=
  (c1_fixed_segmentation_amended cfgC1w (by decide) (by decide) 500).1 (by decide)

/-! ## C4: silence-based segmentation -/

/-- C4, counterexample: on a buffer of duration `40000` that is entirely
non-silent — pydub then reports the single non-silent range `[0, 40000]` and
the single chunk equal to the whole buffer — the default (valid) config does
*not* return one whole-buffer segment: the chunk exceeds
`max_segment_length = 30000` and is re-split into four fixed windows. -/
theorem c4_counterexample :
    validate_config ({} : SegmentationConfig) = .ok () ∧
    split_on_silence_method {} 40000 [⟨0, 40000⟩] [⟨0, 40000⟩] =
      [⟨0, 10000⟩, ⟨10000, 20000⟩, ⟨20000, 30000⟩, ⟨30000, 40000⟩] := by
  exact ⟨by decide, by decide⟩

/-- C4 (amended): for a valid config, (i) when no non-silent interval is
detected the whole buffer is emitted as a single degenerate segment,
bypassing the min/max post-filter entirely; (ii) when the buffer is entirely
above the silence threshold — modelled by pydub returning the single
non-silent range `[0, D]` and the single whole-buffer chunk — silence-based
segmentation returns exactly one segment equal to the whole buffer *provided*
`min_segment_length ≤ D ≤ max_segment_length`; a shorter buffer is dropped
and a longer one is re-split by the fixed-length strategy. -/
theorem c4_silence_amended (c : SegmentationConfig) (h : ConfigOK c) (D : Int) :
    (∀ chunks : List Seg, split_on_silence_method c D [] chunks = [⟨0, D⟩]) ∧
    (c.min_segment_length ≤ D → D ≤ c.max_segment_length →
      split_on_silence_method c D [⟨0, D⟩] [⟨0, D⟩] = [⟨0, D⟩]) := by
  constructor
  · intro chunks
    rfl
  · intro hmin hmax
    have hn1 : ¬ (Seg.len ⟨0, D⟩ < c.min_segment_length) := by
      simp only [Seg.len]
      omega
    have hn2 : ¬ (Seg.len ⟨0, D⟩ > c.max_segment_length) := by
      simp only [Seg.len]
      omega
    simp [split_on_silence_method, silencePostFilter, hn1, hn2]

/-- Witness for `c4_silence_amended` at `D = 5000` under the default config. -/
theorem c4_silence_amended_witness :
    split_on_silence_method ({} : SegmentationConfig) 5000 [] [] = [⟨0, 5000⟩] ∧
    split_on_silence_method ({} : SegmentationConfig) 5000 [⟨0, 5000⟩]
      [⟨0, 5000⟩] = [⟨0, 5000⟩] :=
  ⟨(c4_silence_amended {} (by decide) 5000).1 [],
   (c4_silence_amended {} (by decide) 5000).2 (by decide) (by decide)⟩

/-! ## Energy loop invariants, C9 -/

/-- Every segment the energy scan emits has length at least
`min_segment_length`: interior runs are guarded by
`end - start >= min_segment_length`, the final still-open run by the same
check against `D`. -/
theorem energyLoop_min_len (minLen D : Int) (thr : ℚ) :
    ∀ (vals : List ℚ) (i : Int) (st : Option Int),
      ∀ s ∈ energyLoop minLen D thr vals i st, minLen ≤ s.len := by
  intro vals
  induction vals with
  | nil =>
    intro i st s hs
    cases st with
    | none => simp [energyLoop] at hs
    | some s0 =>
      simp only [energyLoop] at hs
      split at hs
      · rcases List.mem_singleton.mp hs with rfl
        simp only [Seg.len]
        omega
      · simp at hs
  | cons v rest ih =>
    intro i st s hs
    cases st with
    | none =>
      simp only [energyLoop] at hs
      split at hs
      · exact ih (i + 1) (some (i * 100)) s hs
      · exact ih (i + 1) none s hs
    | some s0 =>
      simp only [energyLoop] at hs
      split at hs
      · rcases List.mem_append.mp hs with hs | hs
        · split at hs
          · rcases List.mem_singleton.mp hs with rfl
            simp only [Seg.len]
            omega
          · simp at hs
        · exact ih (i + 1) none s hs
      · exact ih (i + 1) (some s0) s hs

/-- Lower bound on the starts the energy scan can still emit: nothing starts
before the open run's start (resp. before the current window). -/
theorem energyLoop_start_lb (minLen D : Int) (thr : ℚ) :
    ∀ (vals : List ℚ) (i : Int) (st : Option Int),
      (∀ s0, st = some s0 → s0 ≤ i * 100) →
      ∀ s ∈ energyLoop minLen D thr vals i st, st.getD (i * 100) ≤ s.start := by
  intro vals
  induction vals with
  | nil =>
    intro i st hinv s hs
    cases st with
    | none => simp [energyLoop] at hs
    | some s0 =>
      simp only [energyLoop] at hs
      split at hs
      · rcases List.mem_singleton.mp hs with rfl
        simp
      · simp at hs
  | cons v rest ih =>
    intro i st hinv s hs
    cases st with
    | none =>
      simp only [energyLoop] at hs
      simp only [Option.getD_none]
      split at hs
      · have := ih (i + 1) (some (i * 100)) (by intro s0 he; cases he; nlinarith) s hs
        simpa using this
      · have := ih (i + 1) none (by intro s0 he; cases he) s hs
        simp only [Option.getD_none] at this
        nlinarith
    | some s0 =>
      have hle : s0 ≤ i * 100 := hinv s0 rfl
      simp only [energyLoop] at hs
      simp only [Option.getD_some]
      split at hs
      · rcases List.mem_append.mp hs with hs | hs
        · split at hs
          · rcases List.mem_singleton.mp hs with rfl
            simp
          · simp at hs
        · have := ih (i + 1) none (by intro t ht; cases ht) s hs
          simp only [Option.getD_none] at this
          nlinarith
      · exact ih (i + 1) (some s0) (by intro t ht; cases ht; nlinarith) s hs

/-- The segments the energy scan emits are pairwise disjoint in order: each
one ends at or before the next begins. -/
theorem energyLoop_disjoint (minLen D : Int) (thr : ℚ) :
    ∀ (vals : List ℚ) (i : Int) (st : Option Int),
      (∀ s0, st = some s0 → s0 ≤ i * 100) →
      List.Pairwise (fun a b => a.stop ≤ b.start)
        (energyLoop minLen D thr vals i st) := by
  intro vals
  induction vals with
  | nil =>
    intro i st hinv
    cases st with
    | none => simp [energyLoop]
    | some s0 =>
      simp only [energyLoop]
      split
      · simp
      · simp
  | cons v rest ih =>
    intro i st hinv
    cases st with
    | none =>
      simp only [energyLoop]
      split
      · exact ih (i + 1) (some (i * 100)) (by intro s0 he; cases he; nlinarith)
      · exact ih (i + 1) none (by intro s0 he; cases he)
    | some s0 =>
      have hle : s0 ≤ i * 100 := hinv s0 rfl
      simp only [energyLoop]
      split
      · rw [List.pairwise_append]
        refine ⟨?_, ih (i + 1) none (by intro t ht; cases ht), ?_⟩
        · split
          · simp
          · simp
        · intro a ha b hb
          split at ha
          · rcases List.mem_singleton.mp ha with rfl
            have := energyLoop_start_lb minLen D thr rest (i + 1) none
              (by intro t ht; cases ht) b hb
            simp only [Option.getD_none] at this
            simp only []
            nlinarith
          · simp at ha
      · exact ih (i + 1) (some s0) (by intro t ht; cases ht; nlinarith)

/-- C9: for every buffer, valid config and accepted threshold, energy-based
segmentation never returns a segment shorter than `min_segment_length`:
each candidate run (including one still active at the buffer's end) is
emitted only if its length is at least `min_segment_length`. -/
theorem c9_energy_min_length (c : SegmentationConfig) (h : ConfigOK c)
    (buf : AudioBuffer) (thr : ℚ) (h0 : 0 ≤ thr) (h1 : thr ≤ 1)
    (segs : List Seg) (hok : segment_by_energy c buf thr = .ok segs) :
    ∀ s ∈ segs, c.min_segment_length ≤ s.len := by
  have hin : ¬ ¬ (0 ≤ thr ∧ thr ≤ 1) := not_not_intro (And.intro h0 h1)
  simp only [segment_by_energy, if_neg hin] at hok
  cases hmax : (rmsValues buf).max? with
  | none => rw [hmax] at hok; exact absurd hok (by simp)
  | some m =>
    rw [hmax] at hok
    simp only [Except.ok.injEq] at hok
    subst hok
    exact energyLoop_min_len c.min_segment_length buf.duration thr _ 0 none

/-- Witness for `c9_energy_min_length` at a concrete buffer: the single
segment `[0, 300)` the energy strategy returns there. -/
theorem c9_energy_min_length_witness :
    SegmentationConfig.min_segment_length { min_segment_length := 100 } ≤
      Seg.len ⟨0, 300⟩ :=
  c9_energy_min_length { min_segment_length := 100 } (by decide)
    ⟨300, fun _ => 5⟩ (2 / 10) (by norm_num) (by norm_num) [Seg.mk 0 300]
    (by
      have h : rmsValues ⟨300, fun _ => 5⟩ = [5, 5, 5] := by decide
      simp only [segment_by_energy, h]
      norm_num [energyLoop, List.max?])
    ⟨0, 300⟩ (by simp)

/-! ## C2: cross-strategy invariants -/

/-- The silence-mode post-filter over a sorted, pairwise-disjoint chunk list
yields segments sorted by start time. -/
theorem silence_flatMap_sorted (c : SegmentationConfig) (h : ConfigOK c)
    (hminS : c.min_segment_length ≤ c.segment_duration)
    (hSmax : c.segment_duration ≤ c.max_segment_length) :
    ∀ chunks : List Seg,
      List.Pairwise (fun a b => a.stop ≤ b.start) chunks →
      (∀ ch ∈ chunks, ch.start ≤ ch.stop) →
      List.Pairwise (fun a b => a.start ≤ b.start)
        (chunks.flatMap (silencePostFilter c)) := by
  intro chunks
  induction chunks with
  | nil =>
    intro _ _
    simp
  | cons ch rest ih =>
    intro hpair hlen
    rw [List.flatMap_cons, List.pairwise_append]
    have hch : ch.start ≤ ch.stop := hlen ch (List.mem_cons_self ch rest)
    refine ⟨silencePostFilter_sorted c h ch, ?_, ?_⟩
    · exact ih (List.Pairwise.of_cons hpair)
        (fun x hx => hlen x (List.mem_cons_of_mem ch hx))
    · intro a ha b hb
      obtain ⟨ch2, hch2, hb2⟩ := List.mem_flatMap.mp hb
      have hfa := silencePostFilter_facts c h hminS hSmax ch hch a ha
      have hch2len : ch2.start ≤ ch2.stop :=
        hlen ch2 (List.mem_cons_of_mem ch hch2)
      have hfb := silencePostFilter_facts c h hminS hSmax ch2 hch2len b hb2
      have hcross : ch.stop ≤ ch2.start :=
        (List.pairwise_cons.mp hpair).1 ch2 hch2
      have hmin0 : 0 < c.min_segment_length := h.2.2.1
      have halen : a.start ≤ a.stop := by
        have := hfa.2.2.1
        simp only [Seg.len] at this
        omega
      calc a.start ≤ a.stop := halen
        _ ≤ ch.stop := hfa.2.1
        _ ≤ ch2.start := hcross
        _ ≤ b.start := hfb.1


/-- C2, counterexample: under the valid config `cfgC2x`
(`max_segment_length = 2`), energy-based segmentation of a fully active
`300` ms buffer returns the single run `[0, 300)`, whose length `300`
exceeds `max_segment_length` — energy mode enforces no upper length bound,
so the claimed invariant `length ∈ [min_segment_length, max_segment_length]`
fails (the buffer is longer, not shorter, than `min_segment_length`). -/
theorem c2_counterexample :
    validate_config cfgC2x = .ok () ∧
    segment_by_energy cfgC2x ⟨300, fun _ => 5⟩ (2 / 10) = .ok [⟨0, 300⟩] ∧
    cfgC2x.max_segment_length < Seg.len ⟨0, 300⟩ := by
  refine ⟨by decide, ?_, by decide⟩
  have h : rmsValues ⟨300, fun _ => 5⟩ = [5, 5, 5] := by decide
  simp only [segment_by_energy, h]
  norm_num [energyLoop, List.max?, cfgC2x]

/-- C2 (amended): for a valid config with
`min_segment_length ≤ segment_duration ≤ max_segment_length`:
fixed mode returns segments ordered by start, with length at most
`max_segment_length`, and at least `min_segment_length` except the single
whole-buffer segment of the `D ≤ segment_duration` path (in particular when
the buffer is shorter than `min_segment_length`); energy mode returns
ordered, pairwise disjoint segments of length at least `min_segment_length`
but enforces no upper bound; silence mode — over pydub chunks that are
ordered and pairwise disjoint (which `keep_silence` padding does not always
guarantee) — returns ordered segments with lengths in
`[min_segment_length, max_segment_length]`, except the degenerate
whole-buffer segment emitted when no non-silent range was detected.
Fixed-mode windows may deliberately overlap by `overlap` ms. -/
theorem c2_invariants_amended (c : SegmentationConfig) (h : ConfigOK c)
    (hminS : c.min_segment_length ≤ c.segment_duration)
    (hSmax : c.segment_duration ≤ c.max_segment_length) :
    (∀ D : Int,
      List.Pairwise (fun a b => a.start ≤ b.start)
        (split_into_fixed_length_segments c 0 D) ∧
      (0 ≤ D → ∀ s ∈ split_into_fixed_length_segments c 0 D,
        s.len ≤ c.max_segment_length ∧
          (c.min_segment_length ≤ s.len ∨
            (D ≤ c.segment_duration ∧ s = ⟨0, D⟩)))) ∧
    (∀ (buf : AudioBuffer) (thr : ℚ) (segs : List Seg),
      segment_by_energy c buf thr = .ok segs →
      List.Pairwise (fun a b => a.stop ≤ b.start) segs ∧
      List.Pairwise (fun a b => a.start ≤ b.start) segs ∧
      (∀ s ∈ segs, c.min_segment_length ≤ s.len)) ∧
    (∀ (D : Int) (ranges chunks : List Seg),
      List.Pairwise (fun a b => a.stop ≤ b.start) chunks →
      (∀ ch ∈ chunks, ch.start ≤ ch.stop) →
      List.Pairwise (fun a b => a.start ≤ b.start)
        (split_on_silence_method c D ranges chunks) ∧
      (∀ s ∈ split_on_silence_method c D ranges chunks,
        (c.min_segment_length ≤ s.len ∧ s.len ≤ c.max_segment_length) ∨
          (ranges = [] ∧ s = ⟨0, D⟩))) := by
  refine ⟨?_, ?_, ?_⟩
  · intro D
    refine ⟨split_fixed_sorted c h 0 D, ?_⟩
    intro hD s hs
    have := split_fixed_all c h hminS hSmax 0 D (by omega) s hs
    obtain ⟨-, -, h3, h4⟩ := this
    refine ⟨h3, ?_⟩
    rcases h4 with h4 | ⟨h4, rfl⟩
    · exact Or.inl h4
    · exact Or.inr ⟨by omega, rfl⟩
  · intro buf thr segs hok
    by_cases hin : ¬ (0 ≤ thr ∧ thr ≤ 1)
    · simp [segment_by_energy, hin] at hok
    · simp only [segment_by_energy, if_neg (not_not_intro (not_not.mp hin))] at hok
      cases hmax : (rmsValues buf).max? with
      | none => rw [hmax] at hok; exact absurd hok (by simp)
      | some m =>
        rw [hmax] at hok
        simp only [Except.ok.injEq] at hok
        subst hok
        have hdisj := energyLoop_disjoint c.min_segment_length buf.duration thr
          (if m > 0 then (rmsValues buf).map (· / m) else rmsValues buf) 0 none
          (by intro s0 hs0; cases hs0)
        have hlen := energyLoop_min_len c.min_segment_length buf.duration thr
          (if m > 0 then (rmsValues buf).map (· / m) else rmsValues buf) 0 none
        refine ⟨hdisj, ?_, hlen⟩
        refine List.Pairwise.imp_of_mem ?_ hdisj
        intro a b ha hb hab
        have hla := hlen a ha
        have hmin0 : 0 < c.min_segment_length := h.2.2.1
        simp only [Seg.len] at hla
        omega
  · intro D ranges chunks hpair hlenc
    cases ranges with
    | nil =>
      constructor
      · simp [split_on_silence_method]
      · intro s hs
        simp only [split_on_silence_method, if_pos rfl] at hs
        rcases List.mem_singleton.mp hs with rfl
        exact Or.inr ⟨rfl, rfl⟩
    | cons r rs =>
      have hne : (r :: rs : List Seg) ≠ [] := by simp
      constructor
      · simp only [split_on_silence_method, if_neg hne]
        exact silence_flatMap_sorted c h hminS hSmax chunks hpair hlenc
      · intro s hs
        simp only [split_on_silence_method, if_neg hne] at hs
        obtain ⟨ch, hch, hs2⟩ := List.mem_flatMap.mp hs
        have := silencePostFilter_facts c h hminS hSmax ch (hlenc ch hch) s hs2
        exact Or.inl ⟨this.2.2.1, this.2.2.2⟩

/-- Witness for `c2_invariants_amended`: the fixed-mode ordering conjunct
under the default config on a `25000` ms buffer. -/
theorem c2_invariants_amended_witness :
    List.Pairwise (fun a b => a.start ≤ b.start)
      (split_into_fixed_length_segments ({} : SegmentationConfig) 0 25000) :=
  ((c2_invariants_amended {} (by decide) (by decide) (by decide)).1 25000).1

/-! ## C3: config validation -/


/-- C3, counterexample: a config with `min_silence_len = -5` raises
`ValueError("min_silence_len must be positive")` — the message names the
offending field but does *not* contain the invalid value `-5`, so the claim's
"naming the offending field and its invalid value" fails. -/
theorem c3_counterexample :
    validate_config cfgC3bad =
      .error (.valueError ("min_silence_len must be positive")) ∧
    ¬ ("-5".toList <:+: "min_silence_len must be positive".toList) := by
  exact ⟨by decide, by decide⟩

/-- C3 (amended): the invariants are checked by `AudioSegmenter.__init__`
(via `_validate_config`) in the fixed source order `min_silence_len > 0`,
`segment_duration > 0`, `min_segment_length > 0`,
`max_segment_length > min_segment_length`, `overlap ≥ 0`,
`overlap < segment_duration`; a config satisfying all of them constructs
successfully, and a config violating any of them raises a `ValueError` for
the first violated invariant in that order, whose message names the
offending field (but not its value); there is no aggregate-error path. -/
theorem c3_validation_amended (c : SegmentationConfig) :
    (c.min_silence_len ≤ 0 →
      validate_config c = .error (.valueError ("min_silence_len must be positive"))) ∧
    (0 < c.min_silence_len → c.segment_duration ≤ 0 →
      validate_config c = .error (.valueError ("segment_duration must be positive"))) ∧
    (0 < c.min_silence_len → 0 < c.segment_duration → c.min_segment_length ≤ 0 →
      validate_config c = .error (.valueError ("min_segment_length must be positive"))) ∧
    (0 < c.min_silence_len → 0 < c.segment_duration → 0 < c.min_segment_length →
      c.max_segment_length ≤ c.min_segment_length →
      validate_config c =
        .error (.valueError ("max_segment_length must be greater than min_segment_length"))) ∧
    (0 < c.min_silence_len → 0 < c.segment_duration → 0 < c.min_segment_length →
      c.min_segment_length < c.max_segment_length → c.overlap < 0 →
      validate_config c = .error (.valueError ("overlap must be non-negative"))) ∧
    (0 < c.min_silence_len → 0 < c.segment_duration → 0 < c.min_segment_length →
      c.min_segment_length < c.max_segment_length → 0 ≤ c.overlap →
      c.segment_duration ≤ c.overlap →
      validate_config c = .error (.valueError ("overlap must be less than segment_duration"))) ∧
    (ConfigOK c → validate_config c = .ok ()) ∧
    ("min_silence_len".toList <:+: "min_silence_len must be positive".toList) ∧
    ("segment_duration".toList <:+: "segment_duration must be positive".toList) ∧
    ("min_segment_length".toList <:+: "min_segment_length must be positive".toList) ∧
    ("max_segment_length".toList <:+:
      "max_segment_length must be greater than min_segment_length".toList) ∧
    ("overlap".toList <:+: "overlap must be non-negative".toList) ∧
    ("overlap".toList <:+: "overlap must be less than segment_duration".toList) := by
  refine ⟨?_, ?_, ?_, ?_, ?_, ?_, ?_, by decide, by decide, by decide, by decide,
    by decide, by decide⟩
  · intro h1
    simp [validate_config, h1]
  · intro h1 h2
    have hn1 : ¬ c.min_silence_len ≤ 0 := by omega
    simp [validate_config, hn1, h2]
  · intro h1 h2 h3
    have hn1 : ¬ c.min_silence_len ≤ 0 := by omega
    have hn2 : ¬ c.segment_duration ≤ 0 := by omega
    simp [validate_config, hn1, hn2, h3]
  · intro h1 h2 h3 h4
    have hn1 : ¬ c.min_silence_len ≤ 0 := by omega
    have hn2 : ¬ c.segment_duration ≤ 0 := by omega
    have hn3 : ¬ c.min_segment_length ≤ 0 := by omega
    simp [validate_config, hn1, hn2, hn3, h4]
  · intro h1 h2 h3 h4 h5
    have hn1 : ¬ c.min_silence_len ≤ 0 := by omega
    have hn2 : ¬ c.segment_duration ≤ 0 := by omega
    have hn3 : ¬ c.min_segment_length ≤ 0 := by omega
    have hn4 : ¬ c.max_segment_length ≤ c.min_segment_length := by omega
    simp [validate_config, hn1, hn2, hn3, hn4, h5]
  · intro h1 h2 h3 h4 h5 h6
    have hn1 : ¬ c.min_silence_len ≤ 0 := by omega
    have hn2 : ¬ c.segment_duration ≤ 0 := by omega
    have hn3 : ¬ c.min_segment_length ≤ 0 := by omega
    have hn4 : ¬ c.max_segment_length ≤ c.min_segment_length := by omega
    have hn5 : ¬ c.overlap < 0 := by omega
    have h6g : c.overlap ≥ c.segment_duration := h6
    simp [validate_config, hn1, hn2, hn3, hn4, hn5, h6g]
  · exact fun hok => (validate_config_ok_iff c).mpr hok

/-- Witness for `c3_validation_amended`: the first-violation branch at
`cfgC3bad` and the all-invariants-hold branch at the default config. -/
theorem c3_validation_amended_witness :
    validate_config cfgC3bad =
      .error (.valueError ("min_silence_len must be positive")) ∧
    validate_config ({} : SegmentationConfig) = .ok () :=
  ⟨(c3_validation_amended cfgC3bad).1 (by decide),
   (c3_validation_amended ({} : SegmentationConfig)).2.2.2.2.2.2.1 (by decide)⟩

/-! ## C5: unknown method, energy threshold validation -/

/-- C5, counterexample: `energy_threshold = 0` lies outside the open interval
`(0, 1)` claimed to be enforced, yet `segment_by_energy` accepts it (the
source checks `0 <= energy_threshold <= 1`, a closed interval) and returns a
normal result rather than rejecting it. -/
theorem c5_counterexample :
    segment_by_energy {} ⟨300, fun _ => 5⟩ 0 = .ok [] := by
  have h : rmsValues ⟨300, fun _ => 5⟩ = [5, 5, 5] := by decide
  simp only [segment_by_energy, h]
  norm_num [energyLoop, List.max?]

/-- C5 (amended): an unknown `method` fails with
`ValueError("Invalid segmentation method: ...")` for every buffer and config;
and the energy threshold is validated against the *closed* interval
`[0, 1]`: values strictly outside it are rejected (as an
`AudioSegmentationError` wrapping the range message, since the method's own
`try` block catches its `ValueError`), while the boundary values `0` and `1`
are accepted. -/
theorem c5_dispatch_amended :
    (∀ (c : SegmentationConfig) (buf : AudioBuffer) (ranges chunks : List Seg)
      (method : String), method ≠ "silence" → method ≠ "fixed" →
      method ≠ "energy" →
      segment_audio c buf ranges chunks method =
        .error (.valueError ("Invalid segmentation method: " ++ method))) ∧
    (∀ (c : SegmentationConfig) (buf : AudioBuffer) (thr : ℚ),
      ¬ (0 ≤ thr ∧ thr ≤ 1) →
      segment_by_energy c buf thr = .error (.segmentationError
        ("Error segmenting audio by energy: energy_threshold must be between 0 and 1"))) ∧
    (∀ (c : SegmentationConfig) (buf : AudioBuffer) (thr : ℚ),
      0 ≤ thr → thr ≤ 1 →
      segment_by_energy c buf thr ≠ .error (.segmentationError
        ("Error segmenting audio by energy: energy_threshold must be between 0 and 1"))) := by
  refine ⟨?_, ?_, ?_⟩
  · intro c buf ranges chunks method h1 h2 h3
    simp [segment_audio, h1, h2, h3]
  · intro c buf thr hthr
    simp [segment_by_energy, hthr]
  · intro c buf thr h0 h1
    have hin : ¬ ¬ (0 ≤ thr ∧ thr ≤ 1) := not_not_intro (And.intro h0 h1)
    simp only [segment_by_energy, if_neg hin]
    cases (rmsValues buf).max? <;> simp

/-- Witness for `c5_dispatch_amended`: the unknown method `"foo"`, the
rejected threshold `2`, and the accepted boundary threshold `1`. -/
theorem c5_dispatch_amended_witness :
    segment_audio {} ⟨0, fun _ => 0⟩ [] [] "foo" =
      .error (.valueError ("Invalid segmentation method: " ++ "foo")) ∧
    segment_by_energy {} ⟨0, fun _ => 0⟩ 2 = .error (.segmentationError
      ("Error segmenting audio by energy: energy_threshold must be between 0 and 1")) ∧
    segment_by_energy {} ⟨300, fun _ => 5⟩ 1 ≠ .error (.segmentationError
      ("Error segmenting audio by energy: energy_threshold must be between 0 and 1")) :=
  ⟨c5_dispatch_amended.1 {} ⟨0, fun _ => 0⟩ [] [] "foo" (by decide) (by decide)
      (by decide),
   c5_dispatch_amended.2.1 {} ⟨0, fun _ => 0⟩ 2 (by norm_num),
   c5_dispatch_amended.2.2 {} ⟨300, fun _ => 5⟩ 1 (by norm_num) (by norm_num)⟩

/-! ## C8: empty input -/

/-- C8, counterexample: a zero-duration buffer segmented with the fixed
strategy under the (valid) default config yields the single zero-length
whole-buffer segment, not the empty list the claim states (`D = 0 ≤ S` takes
the `return [audio_segment]` path). -/
theorem c8_counterexample :
    validate_config ({} : SegmentationConfig) = .ok () ∧
    split_into_fixed_length_segments {} 0 0 = [⟨0, 0⟩] := by
  exact ⟨by decide, by decide⟩

/-- C8 (amended): `process_text` maps empty text to empty text for *every*
language code without raising; but a zero-duration buffer does not produce an
empty segment list: fixed mode returns the whole (zero-length) buffer as one
segment, silence mode (no non-silent interval detected in an empty buffer)
likewise returns the whole buffer, and energy mode raises an
`AudioSegmentationError` (numpy's `max` of the empty RMS array). -/
theorem c8_empty_input_amended :
    (∀ (engFn : List Char → List Char) (lang : List Char),
      process_text engFn [] lang = []) ∧
    (∀ c : SegmentationConfig, 0 ≤ c.segment_duration →
      split_into_fixed_length_segments c 0 0 = [⟨0, 0⟩]) ∧
    (∀ (c : SegmentationConfig) (chunks : List Seg),
      split_on_silence_method c 0 [] chunks = [⟨0, 0⟩]) ∧
    (∀ (c : SegmentationConfig) (buf : AudioBuffer) (thr : ℚ),
      buf.duration = 0 → 0 ≤ thr → thr ≤ 1 →
      segment_by_energy c buf thr = .error (.segmentationError
        ("Error segmenting audio by energy: zero-size array to reduction operation maximum which has no identity"))) := by
  refine ⟨?_, ?_, ?_, ?_⟩
  · intro engFn lang
    rfl
  · intro c hS
    exact split_fixed_short c 0 0 (by omega)
  · intro c chunks
    rfl
  · intro c buf thr hD h0 h1
    have hrms : rmsValues buf = [] := by
      simp [rmsValues, hD]
    simp [segment_by_energy, hrms, h0, h1]

/-- Witness for `c8_empty_input_amended` at concrete inputs. -/
theorem c8_empty_input_amended_witness :
    process_text (fun t => t) [] "ja".toList = [] ∧
    split_into_fixed_length_segments ({} : SegmentationConfig) 0 0 = [⟨0, 0⟩] ∧
    split_on_silence_method ({} : SegmentationConfig) 0 [] [] = [⟨0, 0⟩] ∧
    segment_by_energy ({} : SegmentationConfig) ⟨0, fun _ => 0⟩ (2 / 10) =
      .error (.segmentationError
        ("Error segmenting audio by energy: zero-size array to reduction operation maximum which has no identity")) :=
  ⟨c8_empty_input_amended.1 (fun t => t) "ja".toList,
   c8_empty_input_amended.2.1 {} (by decide),
   c8_empty_input_amended.2.2.1 {} [],
   c8_empty_input_amended.2.2.2 {} ⟨0, fun _ => 0⟩ (2 / 10) rfl (by norm_num)
     (by norm_num)⟩

/-! ## C10: language dispatch -/

/-- C10: language dispatch is exact, case-sensitive string comparison against
`"ja"` and `"en"`: every other language code — case variants like `"JA"`,
region-tagged codes like `"en-US"`, anything else — is routed to the
fallback pipeline (`' '.join(text.split())`, collapse runs of two or more
periods to exactly three, strip), never to the Japanese or English pipeline.
The result does not depend on the English-pipeline function at all. -/
theorem c10_language_dispatch (engFn : List Char → List Char)
    (t lang : List Char) (hja : lang ≠ "ja".toList) (hen : lang ≠ "en".toList) :
    process_text engFn t lang = fallback_normalize t := by
  unfold process_text
  by_cases ht : t = []
  · subst ht
    rw [if_pos rfl]
    rfl
  · rw [if_neg ht, if_neg hja, if_neg hen]

/-- Witness for `c10_language_dispatch` at the case-variant code `"JA"`. -/
theorem c10_language_dispatch_witness :
    process_text (fun t => t) "Bonjour  monde.. !".toList "JA".toList =
      fallback_normalize "Bonjour  monde.. !".toList :=
  c10_language_dispatch (fun t => t) "Bonjour  monde.. !".toList "JA".toList
    (by decide) (by decide)

/-! ## Worked examples from the specification (regression checks) -/

/-- Japanese whitespace example: runs of ASCII spaces become single
ideographic spaces. -/
theorem example_japanese_whitespace :
    process_japanese_text "これは  テスト   です。".toList =
      "これは　テスト　です。".toList := by decide

/-- Japanese bracket example: western brackets become full-width forms. -/
theorem example_japanese_brackets :
    process_japanese_text "これは(テスト)と[テスト]です。".toList =
      "これは（テスト）と［テスト］です。".toList := by decide

/-- Unsupported-language fallback example. -/
theorem example_fallback_french :
    process_text (fun t => t) "This is a test.  ".toList "fr".toList =
      "This is a test.".toList := by decide

/-- Half-width katakana and ASCII are converted to full width. -/
theorem example_japanese_hankaku :
    process_japanese_text "ｱｲｳ123abc".toList = "アイウ１２３ａｂｃ".toList := by
  decide

/-! ## Japanese pipeline: character-level lemmas -/

/-- `Char.ofNat` round-trips on valid code points. -/
theorem char_toNat_ofNat {n : Nat} (h : n.isValidChar) :
    (Char.ofNat n).toNat = n := by
  rw [Char.ofNat, dif_pos h]
  show (Char.ofNatAux n h).toNat = n
  simp [Char.ofNatAux, Char.toNat, UInt32.toNat, BitVec.toNat_ofNatLt]

theorem kanaPairs_dom : ∀ p ∈ kanaPairs, 0xFF61 ≤ p.1 ∧ p.1 ≤ 0xFF9F := by
  decide

theorem kanaPairs_rng : ∀ p ∈ kanaPairs, 0x3001 ≤ p.2 ∧ p.2 ≤ 0x30FC := by
  decide

/-- The kana table is total on its domain block. -/
theorem kanaPairs_total : ∀ m : Nat, m < 63 →
    (kanaPairs.find? (fun p => p.1 = 0xFF61 + m)).isSome = true := by decide

/-- Characters outside the half-width kana block pass `h2z_kana` unchanged. -/
theorem h2z_kana_eq_self {c : Char} (h : isHalfKana c = false) :
    h2z_kana c = c := by
  unfold h2z_kana
  have hnone : kanaPairs.find? (fun p => p.1 = c.toNat) = none := by
    rw [List.find?_eq_none]
    intro p hp
    have hd := kanaPairs_dom p hp
    simp only [isHalfKana, Bool.and_eq_false_iff, decide_eq_false_iff_not,
      not_le] at h
    simp only [decide_eq_true_eq]
    omega
  rw [hnone]

/-- Characters outside the convertible ASCII range pass `han_to_zen`
unchanged. -/
theorem han_to_zen_eq_self {c : Char} (h : isHanConvertible c = false) :
    han_to_zen c = c := by
  unfold han_to_zen
  rw [if_neg]
  simp only [isHanConvertible, Bool.and_eq_false_iff, decide_eq_false_iff_not,
    not_le] at h
  omega

/-- After the first two stages every character is outside both half-width
ranges, and whitespace is untouched (converted characters are never
whitespace, and whitespace is never convertible). -/
theorem stage12_charOK (c : Char) :
    isHanConvertible (h2z_kana (han_to_zen c)) = false ∧
      isHalfKana (h2z_kana (han_to_zen c)) = false := by
  by_cases hc : 0x21 ≤ c.toNat ∧ c.toNat ≤ 0x7E
  · have hQ : (Char.ofNat (c.toNat + 0xFEE0)).toNat = c.toNat + 0xFEE0 :=
      char_toNat_ofNat (Or.inr ⟨by omega, by omega⟩)
    rw [han_to_zen, if_pos hc]
    have hk : isHalfKana (Char.ofNat (c.toNat + 0xFEE0)) = false := by
      simp only [isHalfKana, hQ, Bool.and_eq_false_iff,
        decide_eq_false_iff_not, not_le]
      omega
    rw [h2z_kana_eq_self hk]
    refine ⟨?_, hk⟩
    simp only [isHanConvertible, hQ, Bool.and_eq_false_iff,
      decide_eq_false_iff_not, not_le]
    omega
  · rw [han_to_zen, if_neg hc]
    unfold h2z_kana
    cases hf : kanaPairs.find? (fun p => p.1 = c.toNat) with
    | some p =>
      have hp : p ∈ kanaPairs := List.mem_of_find?_eq_some hf
      have hr := kanaPairs_rng p hp
      have hQ : (Char.ofNat p.2).toNat = p.2 :=
        char_toNat_ofNat (Or.inl (by omega))
      constructor
      · simp only [isHanConvertible, hQ, Bool.and_eq_false_iff,
          decide_eq_false_iff_not, not_le]
        omega
      · simp only [isHalfKana, hQ, Bool.and_eq_false_iff,
          decide_eq_false_iff_not, not_le]
        omega
    | none =>
      constructor
      · simp only [isHanConvertible, Bool.and_eq_false_iff,
          decide_eq_false_iff_not, not_le]
        omega
      · by_cases hk : isHalfKana c = true
        · exfalso
          simp only [isHalfKana, Bool.and_eq_true, decide_eq_true_eq] at hk
          have hm : c.toNat - 0xFF61 < 63 := by omega
          have := kanaPairs_total (c.toNat - 0xFF61) hm
          have he : 0xFF61 + (c.toNat - 0xFF61) = c.toNat := by omega
          rw [he] at this
          rw [hf] at this
          simp at this
        · simpa using hk

/-- Conversion targets and untouched characters keep their whitespace
status only when they were whitespace to begin with: `han_to_zen` and
`h2z_kana` never produce a whitespace character from a non-whitespace one,
and leave every whitespace character unchanged. -/
theorem stage12_ws (c : Char) :
    isPySpace (h2z_kana (han_to_zen c)) = isPySpace c := by
  by_cases hc : 0x21 ≤ c.toNat ∧ c.toNat ≤ 0x7E
  · have hQ : (Char.ofNat (c.toNat + 0xFEE0)).toNat = c.toNat + 0xFEE0 :=
      char_toNat_ofNat (Or.inr ⟨by omega, by omega⟩)
    rw [han_to_zen, if_pos hc]
    have hk : isHalfKana (Char.ofNat (c.toNat + 0xFEE0)) = false := by
      simp only [isHalfKana, hQ, Bool.and_eq_false_iff,
        decide_eq_false_iff_not, not_le]
      omega
    rw [h2z_kana_eq_self hk]
    simp only [isPySpace, hQ]
    have h1 : ∀ n : Nat, 0x21 ≤ n → n ≤ 0x7E →
        ((0x9 ≤ n + 0xFEE0 && n + 0xFEE0 ≤ 0xD) || n + 0xFEE0 = 0x20 ||
          (0x1C ≤ n + 0xFEE0 && n + 0xFEE0 ≤ 0x1F) || n + 0xFEE0 = 0x85 ||
          n + 0xFEE0 = 0xA0 || n + 0xFEE0 = 0x1680 ||
          (0x2000 ≤ n + 0xFEE0 && n + 0xFEE0 ≤ 0x200A) ||
          n + 0xFEE0 = 0x2028 || n + 0xFEE0 = 0x2029 || n + 0xFEE0 = 0x202F ||
          n + 0xFEE0 = 0x205F || n + 0xFEE0 = 0x3000) = false := by
      intro n ha hb
      simp only [Bool.or_eq_false_iff, Bool.and_eq_false_iff,
        decide_eq_false_iff_not, not_le]
      omega
    have h2 : ∀ n : Nat, 0x21 ≤ n → n ≤ 0x7E →
        ((0x9 ≤ n && n ≤ 0xD) || n = 0x20 || (0x1C ≤ n && n ≤ 0x1F) ||
          n = 0x85 || n = 0xA0 || n = 0x1680 ||
          (0x2000 ≤ n && n ≤ 0x200A) || n = 0x2028 || n = 0x2029 ||
          n = 0x202F || n = 0x205F || n = 0x3000) = false := by
      intro n ha hb
      simp only [Bool.or_eq_false_iff, Bool.and_eq_false_iff,
        decide_eq_false_iff_not, not_le]
      omega
    rw [h1 c.toNat hc.1 hc.2, h2 c.toNat hc.1 hc.2]
  · rw [han_to_zen, if_neg hc]
    unfold h2z_kana
    cases hf : kanaPairs.find? (fun p => p.1 = c.toNat) with
    | some p =>
      have hp : p ∈ kanaPairs := List.mem_of_find?_eq_some hf
      have hr := kanaPairs_rng p hp
      have hd := kanaPairs_dom p hp
      have hfp := List.find?_some hf
      simp only [decide_eq_true_eq] at hfp
      have hQ : (Char.ofNat p.2).toNat = p.2 :=
        char_toNat_ofNat (Or.inl (by omega))
      simp only [isPySpace, hQ]
      have hval : ∀ n m : Nat, 0x3001 ≤ n → n ≤ 0x30FC → 0xFF61 ≤ m →
          (((0x9 ≤ n && n ≤ 0xD) || n = 0x20 || (0x1C ≤ n && n ≤ 0x1F) ||
            n = 0x85 || n = 0xA0 || n = 0x1680 ||
            (0x2000 ≤ n && n ≤ 0x200A) || n = 0x2028 || n = 0x2029 ||
            n = 0x202F || n = 0x205F || n = 0x3000) =
          ((0x9 ≤ m && m ≤ 0xD) || m = 0x20 || (0x1C ≤ m && m ≤ 0x1F) ||
            m = 0x85 || m = 0xA0 || m = 0x1680 ||
            (0x2000 ≤ m && m ≤ 0x200A) || m = 0x2028 || m = 0x2029 ||
            m = 0x202F || m = 0x205F || m = 0x3000)) := by
        intro n m h1 h2 h3
        have hl : ((0x9 ≤ n && n ≤ 0xD) || n = 0x20 ||
            (0x1C ≤ n && n ≤ 0x1F) || n = 0x85 || n = 0xA0 || n = 0x1680 ||
            (0x2000 ≤ n && n ≤ 0x200A) || n = 0x2028 || n = 0x2029 ||
            n = 0x202F || n = 0x205F || n = 0x3000) = false := by
          simp only [Bool.or_eq_false_iff, Bool.and_eq_false_iff,
            decide_eq_false_iff_not, not_le]
          omega
        have hrr : ((0x9 ≤ m && m ≤ 0xD) || m = 0x20 ||
            (0x1C ≤ m && m ≤ 0x1F) || m = 0x85 || m = 0xA0 || m = 0x1680 ||
            (0x2000 ≤ m && m ≤ 0x200A) || m = 0x2028 || m = 0x2029 ||
            m = 0x202F || m = 0x205F || m = 0x3000) = false := by
          simp only [Bool.or_eq_false_iff, Bool.and_eq_false_iff,
            decide_eq_false_iff_not, not_le]
          omega
        rw [hl, hrr]
      rw [← hfp]
      exact hval p.2 p.1 hr.1 hr.2 hd.1
    | none => rfl

/-! ## Brackets and punctuation-spacing lemmas -/

/-- A single-character `str.replace` is the identity when every occurrence of
the pattern maps to itself (vacuously when the pattern is absent). -/
theorem map_if_eq_self {t : List Char} {p q : Char}
    (h : ∀ c ∈ t, c = p → q = c) :
    (t.map fun c => if c = p then q else c) = t := by
  induction t with
  | nil => rfl
  | cons c rest ih =>
    simp only [List.map_cons]
    have h1 : (if c = p then q else c) = c := by
      split
      · rename_i hcp
        exact h c (List.mem_cons_self c rest) hcp
      · rfl
    rw [h1, ih fun d hd => h d (List.mem_cons_of_mem c hd)]

/-- With no convertible ASCII characters left, the bracket-replacement loop
is the identity: its ASCII patterns are absent, and its full-width patterns
map to themselves. -/
theorem applyBrackets_eq_self {t : List Char}
    (h : ∀ c ∈ t, isHanConvertible c = false) : applyBrackets t = t := by
  have key : ∀ (p q : Char), (isHanConvertible p = true ∨ p = q) →
      ∀ (u : List Char), (∀ c ∈ u, isHanConvertible c = false) →
      (u.map fun c => if c = p then q else c) = u := by
    intro p q hpq u hu
    apply map_if_eq_self
    intro c hc hcp
    rcases hpq with hpq | rfl
    · exfalso
      have hcf := hu c hc
      rw [hcp, hpq] at hcf
      simp at hcf
    · rw [hcp]
  unfold applyBrackets bracketPairs
  simp only [List.foldl_cons, List.foldl_nil]
  rw [key '(' '（' (Or.inl (by decide)) t h]
  rw [key ')' '）' (Or.inl (by decide)) t h]
  rw [key '[' '［' (Or.inl (by decide)) t h]
  rw [key ']' '］' (Or.inl (by decide)) t h]
  rw [key (Char.ofNat 0x7B) '｛' (Or.inl (by decide)) t h]
  rw [key (Char.ofNat 0x7D) '｝' (Or.inl (by decide)) t h]
  rw [key '「' '「' (Or.inr rfl) t h]
  rw [key '」' '」' (Or.inr rfl) t h]
  rw [key '【' '【' (Or.inr rfl) t h]
  rw [key '】' '】' (Or.inr rfl) t h]

/-- The punctuation-spacing scanner only deletes characters. -/
theorem rmGo_subset (p : Char) :
    ∀ (t : List Char) (b : Bool), ∀ c ∈ removeSpacesAfterGo p b t, c ∈ t := by
  intro t
  induction t with
  | nil =>
    intro b c hc
    simp [removeSpacesAfterGo] at hc
  | cons d rest ih =>
    intro b c hc
    simp only [removeSpacesAfterGo] at hc
    split at hc
    · exact List.mem_cons_of_mem d (ih true c hc)
    · split at hc <;>
        (rcases List.mem_cons.mp hc with rfl | hc
         · exact List.mem_cons_self c rest
         · first
             | exact List.mem_cons_of_mem d (ih true c hc)
             | exact List.mem_cons_of_mem d (ih false c hc))

/-- In skipping mode the next emitted character is never whitespace. -/
theorem rmGo_true_head (p : Char) (hp : isPySpace p = false) :
    ∀ (t : List Char) (w : Char),
      (removeSpacesAfterGo p true t).head? = some w → isPySpace w = false := by
  intro t
  induction t with
  | nil =>
    intro w hw
    simp [removeSpacesAfterGo] at hw
  | cons d rest ih =>
    intro w hw
    simp only [removeSpacesAfterGo] at hw
    split at hw
    · exact ih w hw
    · rename_i hskip
      split at hw
      · rename_i hdp
        simp only [List.head?_cons, Option.some.injEq] at hw
        rw [← hw, hdp]
        exact hp
      · simp only [List.head?_cons, Option.some.injEq] at hw
        rw [← hw]
        simp only [true_and, not_and] at hskip
        simpa using hskip
  
/-- In normal mode the scanner emits the head unchanged. -/
theorem rmGo_false_head (p : Char) (t : List Char) :
    (removeSpacesAfterGo p false t).head? = t.head? := by
  cases t with
  | nil => rfl
  | cons d rest =>
    simp only [removeSpacesAfterGo]
    split
    · rename_i hcon
      simp at hcon
    · split <;> simp

/-- The scanner establishes its own postcondition: in its output no
whitespace character directly follows an occurrence of `p`. -/
theorem rmGo_chain (p : Char) (hp : isPySpace p = false) :
    ∀ (t : List Char) (b : Bool),
      List.Chain' (fun a b2 => a = p → isPySpace b2 = false)
        (removeSpacesAfterGo p b t) := by
  intro t
  induction t with
  | nil =>
    intro b
    simp [removeSpacesAfterGo]
  | cons d rest ih =>
    intro b
    simp only [removeSpacesAfterGo]
    split
    · exact ih true
    · split
      · rw [List.chain'_cons']
        refine ⟨?_, ih true⟩
        intro w hw _
        exact rmGo_true_head p hp rest w hw
      · rename_i hskip hdp
        rw [List.chain'_cons']
        refine ⟨?_, ih false⟩
        intro w hw hdp2
        exact absurd hdp2 hdp

/-- The scanner for `p` preserves the postcondition already established for
another mark `q`: it deletes characters only immediately after `p`, and the
character it leaves there is not whitespace. -/
theorem rmGo_chain_preserve (p q : Char) (hp : isPySpace p = false) :
    ∀ (t : List Char) (b : Bool),
      List.Chain' (fun a b2 => a = q → isPySpace b2 = false) t →
      List.Chain' (fun a b2 => a = q → isPySpace b2 = false)
        (removeSpacesAfterGo p b t) := by
  intro t
  induction t with
  | nil =>
    intro b _
    simp [removeSpacesAfterGo]
  | cons d rest ih =>
    intro b hch
    have htail : List.Chain' (fun a b2 => a = q → isPySpace b2 = false) rest :=
      hch.tail
    simp only [removeSpacesAfterGo]
    split
    · exact ih true htail
    · split
      · rw [List.chain'_cons']
        refine ⟨?_, ih true htail⟩
        intro w hw _
        exact rmGo_true_head p hp rest w hw
      · rw [List.chain'_cons']
        refine ⟨?_, ih false htail⟩
        intro w hw hq
        rw [rmGo_false_head] at hw
        exact (List.chain'_cons'.mp hch).1 w hw hq

/-- On text already satisfying the postcondition the scanner is the
identity. -/
theorem rmGo_eq_self (p : Char) :
    ∀ (t : List Char) (b : Bool),
      List.Chain' (fun a b2 => a = p → isPySpace b2 = false) t →
      (b = true → ∀ w, t.head? = some w → isPySpace w = false) →
      removeSpacesAfterGo p b t = t := by
  intro t
  induction t with
  | nil =>
    intro b _ _
    cases b <;> rfl
  | cons d rest ih =>
    intro b hch hhd
    have hdns : b = true → isPySpace d = false := fun hb => hhd hb d rfl
    simp only [removeSpacesAfterGo]
    rw [if_neg (by
      intro hcon
      rcases hcon with ⟨hb, hws⟩
      rw [hdns hb] at hws
      exact Bool.false_ne_true hws)]
    split
    · rename_i hdp
      rw [ih true hch.tail ?_]
      intro _ w hw
      exact (List.chain'_cons'.mp hch).1 w hw hdp
    · rw [ih false hch.tail (by intro hcon; exact absurd hcon (by simp))]

/-! ## Splitting lemmas -/

theorem head_dropWhile_not (q : Char → Bool) :
    ∀ (t : List Char) (w : Char),
      (t.dropWhile q).head? = some w → q w = false := by
  intro t
  induction t with
  | nil =>
    intro w hw
    simp at hw
  | cons d rest ih =>
    intro w hw
    rw [List.dropWhile_cons] at hw
    split at hw
    · exact ih w hw
    · rename_i hq
      simp only [List.head?_cons, Option.some.injEq] at hw
      rw [← hw]
      simpa using hq

/-- Closing the pending token: `pySplitGo` with a nonempty accumulator ends
the current maximal run and continues. -/
theorem pySplitGo_acc :
    ∀ (t acc : List Char), acc ≠ [] →
      pySplitGo acc t =
        (acc.reverse ++ t.takeWhile (fun c => !isPySpace c)) ::
          pySplit (t.dropWhile (fun c => !isPySpace c)) := by
  intro t
  induction t with
  | nil =>
    intro acc ha
    simp [pySplitGo, ha, pySplit]
  | cons d rest ih =>
    intro acc ha
    cases hd : isPySpace d with
    | true =>
      have htw : List.takeWhile (fun c => !isPySpace c) (d :: rest) = [] := by
        simp [List.takeWhile_cons, hd]
      have hdw : List.dropWhile (fun c => !isPySpace c) (d :: rest) =
          d :: rest := by
        simp [List.dropWhile_cons, hd]
      rw [htw, hdw, List.append_nil]
      simp [pySplitGo, pySplit, hd, ha]
    | false =>
      have htw : List.takeWhile (fun c => !isPySpace c) (d :: rest) =
          d :: rest.takeWhile (fun c => !isPySpace c) := by
        simp [List.takeWhile_cons, hd]
      have hdw : List.dropWhile (fun c => !isPySpace c) (d :: rest) =
          rest.dropWhile (fun c => !isPySpace c) := by
        simp [List.dropWhile_cons, hd]
      rw [htw, hdw]
      have hstep : pySplitGo acc (d :: rest) = pySplitGo (d :: acc) rest := by
        simp [pySplitGo, hd]
      rw [hstep, ih (d :: acc) (by simp)]
      simp only [List.reverse_cons, List.append_assoc, List.cons_append,
        List.nil_append]

theorem pySplit_cons_ws {d : Char} (hd : isPySpace d = true) (t : List Char) :
    pySplit (d :: t) = pySplit t := by
  simp [pySplit, pySplitGo, hd]

theorem pySplit_cons_nonws {d : Char} (hd : isPySpace d = false)
    (t : List Char) :
    pySplit (d :: t) =
      (d :: t.takeWhile (fun c => !isPySpace c)) ::
        pySplit (t.dropWhile (fun c => !isPySpace c)) := by
  show pySplitGo [] (d :: t) = _
  simp only [pySplitGo, hd]
  rw [if_neg (by simp), pySplitGo_acc t [d] (by simp)]
  rfl

/-- Every token Python `split()` returns is a nonempty run of non-whitespace
characters of the input. -/
theorem pySplit_tokens :
    ∀ (t : List Char), ∀ tok ∈ pySplit t,
      tok ≠ [] ∧ ∀ c ∈ tok, isPySpace c = false ∧ c ∈ t := by
  have H : ∀ (n : Nat) (t : List Char), t.length ≤ n → ∀ tok ∈ pySplit t,
      tok ≠ [] ∧ ∀ c ∈ tok, isPySpace c = false ∧ c ∈ t := by
    intro n
    induction n with
    | zero =>
      intro t ht tok htok
      rw [List.length_eq_zero.mp (Nat.le_zero.mp ht)] at htok
      simp [pySplit, pySplitGo] at htok
    | succ n ih =>
      intro t ht tok htok
      cases t with
      | nil => simp [pySplit, pySplitGo] at htok
      | cons d rest =>
        simp only [List.length_cons] at ht
        cases hd : isPySpace d with
        | true =>
          rw [pySplit_cons_ws hd] at htok
          obtain ⟨hne, hall⟩ := ih rest (by omega) tok htok
          exact ⟨hne, fun c hc =>
            ⟨(hall c hc).1, List.mem_cons_of_mem d (hall c hc).2⟩⟩
        | false =>
          rw [pySplit_cons_nonws hd] at htok
          rcases List.mem_cons.mp htok with rfl | htok
          · refine ⟨by simp, ?_⟩
            intro c hc
            rcases List.mem_cons.mp hc with rfl | hc
            · exact ⟨hd, List.mem_cons_self c rest⟩
            · have h1 := List.mem_takeWhile_imp hc
              have h2 : c ∈ rest :=
                (List.takeWhile_sublist (fun c => !isPySpace c)).subset hc
              refine ⟨?_, List.mem_cons_of_mem d h2⟩
              simpa using h1
          · have hlen : (rest.dropWhile (fun c => !isPySpace c)).length ≤ n := by
              have := (List.dropWhile_sublist (p := fun c => !isPySpace c)
                (l := rest)).length_le
              omega
            obtain ⟨hne, hall⟩ := ih _ hlen tok htok
            refine ⟨hne, fun c hc => ⟨(hall c hc).1, ?_⟩⟩
            have h2 : c ∈ rest :=
              (List.dropWhile_sublist (fun c => !isPySpace c)).subset
                (hall c hc).2
            exact List.mem_cons_of_mem d h2
  intro t
  exact H t.length t (le_refl _)

/-- Membership in a joined list: every character is a separator space or
comes from one of the pieces. -/
theorem mem_joinSp :
    ∀ (toks : List (List Char)) (c : Char), c ∈ joinSp toks →
      c = ' ' ∨ ∃ tok ∈ toks, c ∈ tok := by
  intro toks
  induction toks with
  | nil =>
    intro c hc
    simp [joinSp] at hc
  | cons tok rest ih =>
    intro c hc
    cases rest with
    | nil =>
      exact Or.inr ⟨tok, by simp, by simpa [joinSp] using hc⟩
    | cons tok2 rest2 =>
      rw [show joinSp (tok :: tok2 :: rest2) =
        tok ++ ' ' :: joinSp (tok2 :: rest2) from rfl] at hc
      rcases List.mem_append.mp hc with hc | hc
      · exact Or.inr ⟨tok, by simp, hc⟩
      · rcases List.mem_cons.mp hc with rfl | hc
        · exact Or.inl rfl
        · rcases ih c hc with h | ⟨tk, htk, hctk⟩
          · exact Or.inl h
          · exact Or.inr ⟨tk, List.mem_cons_of_mem tok htk, hctk⟩

/-! ## Join lemmas -/

theorem chain'_of_forall_snd {R : Char → Char → Prop} :
    ∀ l : List Char, (∀ b ∈ l, ∀ a, R a b) → List.Chain' R l := by
  intro l
  induction l with
  | nil =>
    intro _
    simp
  | cons c rest ih =>
    intro h
    rw [List.chain'_cons']
    refine ⟨?_, ih fun b hb a => h b (List.mem_cons_of_mem c hb) a⟩
    intro y hy
    exact h y (List.mem_cons_of_mem c (List.mem_of_mem_head? hy)) c

theorem joinSp_cons_cons (tok tok2 : List Char) (rest2 : List (List Char)) :
    joinSp (tok :: tok2 :: rest2) = tok ++ ' ' :: joinSp (tok2 :: rest2) := rfl

theorem joinSp_ne_nil {tok : List Char} (h : tok ≠ [])
    (rest : List (List Char)) : joinSp (tok :: rest) ≠ [] := by
  cases rest with
  | nil => exact h
  | cons tok2 rest2 =>
    rw [joinSp_cons_cons]
    cases tok with
    | nil => simp
    | cons x xs => simp

theorem joinSp_head {tok : List Char} (h : tok ≠ [])
    (rest : List (List Char)) : (joinSp (tok :: rest)).head? = tok.head? := by
  cases rest with
  | nil => rfl
  | cons tok2 rest2 =>
    rw [joinSp_cons_cons]
    cases tok with
    | nil => exact absurd rfl h
    | cons x xs => simp

/-- The structural facts about `' '.join(text.split())`: no two adjacent
whitespace characters, and non-whitespace first and last characters. -/
theorem joinSp_props :
    ∀ toks : List (List Char),
      (∀ tok ∈ toks, tok ≠ [] ∧ ∀ c ∈ tok, isPySpace c = false) →
      List.Chain' (fun a b => ¬(isPySpace a = true ∧ isPySpace b = true))
        (joinSp toks) ∧
      (∀ w, (joinSp toks).head? = some w → isPySpace w = false) ∧
      (∀ w, (joinSp toks).getLast? = some w → isPySpace w = false) := by
  intro toks
  induction toks with
  | nil =>
    intro _
    refine ⟨by simp [joinSp], ?_, ?_⟩ <;> intro w hw <;> simp [joinSp] at hw
  | cons tok rest ih =>
    intro h
    have htok := h tok (List.mem_cons_self tok rest)
    cases rest with
    | nil =>
      have e : joinSp [tok] = tok := rfl
      refine ⟨?_, ?_, ?_⟩
      · rw [e]
        refine chain'_of_forall_snd tok fun b hb a => ?_
        rw [htok.2 b hb]
        simp
      · rw [e]
        intro w hw
        exact htok.2 w (List.mem_of_mem_head? hw)
      · rw [e]
        intro w hw
        exact htok.2 w (List.mem_of_getLast?_eq_some hw)
    | cons tok2 rest2 =>
      have hrest : ∀ tk ∈ tok2 :: rest2, tk ≠ [] ∧
          ∀ c ∈ tk, isPySpace c = false :=
        fun tk htk => h tk (List.mem_cons_of_mem tok htk)
      obtain ⟨ihc, ihh, ihl⟩ := ih hrest
      have htok2 := hrest tok2 (List.mem_cons_self tok2 rest2)
      refine ⟨?_, ?_, ?_⟩
      · rw [joinSp_cons_cons, List.chain'_append]
        refine ⟨?_, ?_, ?_⟩
        · refine chain'_of_forall_snd tok fun b hb a => ?_
          rw [htok.2 b hb]
          simp
        · rw [List.chain'_cons']
          refine ⟨?_, ihc⟩
          intro y hy
          rw [ihh y hy]
          simp
        · intro x hx y hy
          have hxm : x ∈ tok := List.mem_of_getLast?_eq_some hx
          rw [List.head?_cons, Option.mem_def, Option.some.injEq] at hy
          rw [htok.2 x hxm]
          simp
      · rw [joinSp_head htok.1]
        intro w hw
        exact htok.2 w (List.mem_of_mem_head? hw)
      · rw [joinSp_cons_cons]
        intro w hw
        have hne : (' ' :: joinSp (tok2 :: rest2)) ≠ [] := by simp
        rw [List.getLast?_append_of_ne_nil tok hne] at hw
        have hne2 : joinSp (tok2 :: rest2) ≠ [] := joinSp_ne_nil htok2.1 rest2
        cases hJ : joinSp (tok2 :: rest2) with
        | nil => exact absurd hJ hne2
        | cons y ys =>
          rw [hJ, List.getLast?_cons_cons] at hw
          apply ihl
          rw [hJ]
          exact hw

/-- If in `t` no whitespace directly follows the mark `p`, the same holds in
`' '.join(t.split())`: a token can end with `p` only at the very end of the
text (otherwise whitespace followed `p` in `t`), so no separator space ever
follows `p` in the joined text. -/
theorem joinSp_pySplit_chain (p : Char) (hp : isPySpace p = false) :
    ∀ (n : Nat) (t : List Char), t.length ≤ n →
      List.Chain' (fun a b => a = p → isPySpace b = false) t →
      List.Chain' (fun a b => a = p → isPySpace b = false)
        (joinSp (pySplit t)) := by
  intro n
  induction n with
  | zero =>
    intro t ht _
    rw [List.length_eq_zero.mp (Nat.le_zero.mp ht)]
    simp [pySplit, pySplitGo, joinSp]
  | succ n ih =>
    intro t ht hch
    cases t with
    | nil => simp [pySplit, pySplitGo, joinSp]
    | cons d rest =>
      simp only [List.length_cons] at ht
      cases hd : isPySpace d with
      | true =>
        rw [pySplit_cons_ws hd]
        exact ih rest (by omega) hch.tail
      | false =>
        rw [pySplit_cons_nonws hd]
        have hdecomp : d :: rest =
            (d :: rest.takeWhile (fun c => !isPySpace c)) ++
              rest.dropWhile (fun c => !isPySpace c) := by
          rw [List.cons_append, List.takeWhile_append_dropWhile]
        have hch2 := hdecomp ▸ hch
        rw [List.chain'_append] at hch2
        obtain ⟨hchtok, hchtd, hbound⟩ := hch2
        cases hsplit : pySplit (rest.dropWhile (fun c => !isPySpace c)) with
        | nil =>
          exact hchtok
        | cons x xs =>
          rw [joinSp_cons_cons, List.chain'_append]
          refine ⟨hchtok, ?_, ?_⟩
          · rw [List.chain'_cons']
            constructor
            · intro y hy hsp
              rw [← hsp] at hp
              simp [isPySpace] at hp
            · rw [← hsplit]
              refine ih _ ?_ hchtd
              have := (List.dropWhile_sublist
                (p := fun c => !isPySpace c) (l := rest)).length_le
              omega
          · intro a ha b hb
            rw [List.head?_cons, Option.mem_def, Option.some.injEq] at hb
            intro hap
            exfalso
            have htdne : rest.dropWhile (fun c => !isPySpace c) ≠ [] := by
              intro hnil
              rw [hnil] at hsplit
              simp [pySplit, pySplitGo] at hsplit
            obtain ⟨w, td2, htd⟩ :=
              List.exists_cons_of_ne_nil htdne
            have hwws : isPySpace w = true := by
              have := head_dropWhile_not (fun c => !isPySpace c) rest w
                (by rw [htd]; rfl)
              simpa using this
            have := hbound a ha w (by rw [htd]; rfl)
            rw [this hap] at hwws
            exact Bool.false_ne_true hwws

/-- On text already in normal form — no two adjacent whitespace characters,
non-whitespace ends, and every whitespace character equal to the ideographic
space — re-splitting, re-joining with ASCII spaces, and re-replacing the
spaces by ideographic spaces reproduces the text exactly. -/
theorem stage56_id :
    ∀ (n : Nat) (u : List Char), u.length ≤ n →
      List.Chain' (fun a b => ¬(isPySpace a = true ∧ isPySpace b = true)) u →
      (∀ w, u.head? = some w → isPySpace w = false) →
      (∀ w, u.getLast? = some w → isPySpace w = false) →
      (∀ c ∈ u, isPySpace c = true → c = '　') →
      (joinSp (pySplit u)).map (fun c => if c = ' ' then '　' else c) = u := by
  intro n
  induction n with
  | zero =>
    intro u hu _ _ _ _
    rw [List.length_eq_zero.mp (Nat.le_zero.mp hu)]
    rfl
  | succ n ih =>
    intro u hu hch hhd hlast hws
    cases u with
    | nil => rfl
    | cons c r =>
      simp only [List.length_cons] at hu
      have hc : isPySpace c = false := hhd c rfl
      rw [pySplit_cons_nonws hc]
      have hdecomp : c :: r =
          (c :: r.takeWhile (fun x => !isPySpace x)) ++
            r.dropWhile (fun x => !isPySpace x) := by
        rw [List.cons_append, List.takeWhile_append_dropWhile]
      have htok_nonws : ∀ x ∈ c :: r.takeWhile (fun x => !isPySpace x),
          isPySpace x = false := by
        intro x hx
        rcases List.mem_cons.mp hx with rfl | hx
        · exact hc
        · simpa using List.mem_takeWhile_imp hx
      have hmapid : ∀ (l : List Char), (∀ x ∈ l, isPySpace x = false) →
          l.map (fun x => if x = ' ' then '　' else x) = l := by
        intro l hl
        have : ∀ x ∈ l, (fun x => if x = ' ' then '　' else x) x = id x := by
          intro x hx
          simp only [id]
          rw [if_neg]
          intro hsp
          have hxf := hl x hx
          rw [hsp] at hxf
          simp [isPySpace] at hxf
        rw [List.map_congr_left this, List.map_id]
      cases htd : r.dropWhile (fun x => !isPySpace x) with
      | nil =>
        rw [show pySplit ([] : List Char) = [] from rfl]
        have e : joinSp [c :: r.takeWhile (fun x => !isPySpace x)] =
            c :: r.takeWhile (fun x => !isPySpace x) := rfl
        rw [e, hmapid _ htok_nonws]
        rw [hdecomp, htd, List.append_nil]
      | cons w td2 =>
        have hwmem : w ∈ c :: r := by
          rw [hdecomp, htd]
          exact List.mem_append_right _ (List.mem_cons_self w td2)
        have hwws : isPySpace w = true := by
          have := head_dropWhile_not (fun x => !isPySpace x) r w
            (by rw [htd]; rfl)
          simpa using this
        have hw3000 : w = '　' := hws w hwmem hwws
        have htd2ne : td2 ≠ [] := by
          intro hnil
          rw [hnil] at htd
          have : (c :: r).getLast? = some w := by
            rw [hdecomp, htd]
            rw [List.getLast?_append_of_ne_nil _ (by simp)]
            rfl
          rw [hlast w this] at hwws
          exact Bool.false_ne_true hwws
        obtain ⟨y, td3, hy⟩ := List.exists_cons_of_ne_nil htd2ne
        -- chain on the suffix '　' :: td2
        have hchsuf : List.Chain'
            (fun a b => ¬(isPySpace a = true ∧ isPySpace b = true))
            (w :: td2) := by
          have := hdecomp ▸ hch
          rw [htd] at this
          exact (List.chain'_append.mp this).2.1
        have hhd2 : isPySpace y = false := by
          have hpair := (List.chain'_cons'.mp hchsuf).1 y (by rw [hy]; rfl)
          by_cases hyy : isPySpace y = true
          · exact absurd ⟨hwws, hyy⟩ hpair
          · simpa using hyy
        have hsplit2 : pySplit (w :: td2) = pySplit td2 := by
          rw [hw3000]
          exact pySplit_cons_ws (by decide) td2
        rw [hsplit2, hy, pySplit_cons_nonws hhd2, ← pySplit_cons_nonws hhd2,
          ← hy]
        have hJne : pySplit td2 ≠ [] := by
          rw [hy, pySplit_cons_nonws hhd2]
          simp
        cases hps : pySplit td2 with
        | nil => exact absurd hps hJne
        | cons z zs =>
          rw [joinSp_cons_cons, List.map_append, hmapid _ htok_nonws, ← hps]
          simp only [List.map_cons, if_true]
          have hIH : (joinSp (pySplit td2)).map
              (fun x => if x = ' ' then '　' else x) = td2 := by
            refine ih td2 ?_ ?_ ?_ ?_ ?_
            · have h1 := (List.dropWhile_sublist
                (p := fun x => !isPySpace x) (l := r)).length_le
              rw [htd] at h1
              simp only [List.length_cons] at h1
              omega
            · exact hchsuf.tail
            · intro v hv
              rw [hy, List.head?_cons, Option.some.injEq] at hv
              rw [← hv]
              exact hhd2
            · intro v hv
              apply hlast
              rw [hdecomp, htd]
              rw [List.getLast?_append_of_ne_nil _ (by simp)]
              rw [hy, List.getLast?_cons_cons, ← hy]
              exact hv
            · intro v hv hvws
              apply hws v ?_ hvws
              rw [hdecomp, htd]
              exact List.mem_append_right _
                (List.mem_cons_of_mem w hv)
          rw [hIH]
          rw [hdecomp, htd, hw3000]

/-! ## The Japanese pipeline: output characterization, C7, C6 -/

/-- `strip()` is the identity when both ends are non-whitespace. -/
theorem stripPy_eq_self (t : List Char)
    (hh : ∀ w, t.head? = some w → isPySpace w = false)
    (hl : ∀ w, t.getLast? = some w → isPySpace w = false) :
    stripPy t = t := by
  unfold stripPy
  have h1 : t.dropWhile isPySpace = t := by
    cases t with
    | nil => rfl
    | cons c r =>
      rw [List.dropWhile_cons, if_neg]
      rw [hh c rfl]
      simp
  rw [h1]
  have h2 : t.reverse.dropWhile isPySpace = t.reverse := by
    cases hr : t.reverse with
    | nil => rfl
    | cons c r =>
      rw [List.dropWhile_cons, if_neg]
      have hc : t.getLast? = some c := by
        rw [← List.head?_reverse, hr, List.head?_cons]
      rw [hl c hc]
      simp
  rw [h2, List.reverse_reverse]

/-- Structural characterization of `process_japanese_text` output: it equals
the unstripped join, every character is outside both half-width blocks, no
two adjacent characters are whitespace, the ends are non-whitespace, the only
whitespace character is the ideographic space, no whitespace follows `。` or
`、`, and the ASCII space does not occur. -/
theorem process_japanese_text_normal_form (t : List Char) :
    (∀ c ∈ process_japanese_text t,
      isHanConvertible c = false ∧ isHalfKana c = false) ∧
    List.Chain' (fun a b => ¬(isPySpace a = true ∧ isPySpace b = true))
      (process_japanese_text t) ∧
    (∀ w, (process_japanese_text t).head? = some w → isPySpace w = false) ∧
    (∀ w, (process_japanese_text t).getLast? = some w →
      isPySpace w = false) ∧
    (∀ c ∈ process_japanese_text t, isPySpace c = true → c = '　') ∧
    NoWsAfter '。' (process_japanese_text t) ∧
    NoWsAfter '、' (process_japanese_text t) ∧
    ' ' ∉ process_japanese_text t := by
  have ht2ok : ∀ c ∈ (t.map han_to_zen).map h2z_kana,
      isHanConvertible c = false ∧ isHalfKana c = false := by
    intro c hc
    rw [List.map_map] at hc
    obtain ⟨d, -, rfl⟩ := List.mem_map.mp hc
    exact stage12_charOK d
  have hbr : applyBrackets ((t.map han_to_zen).map h2z_kana) =
      (t.map han_to_zen).map h2z_kana :=
    applyBrackets_eq_self fun c hc => (ht2ok c hc).1
  have hdef : process_japanese_text t =
      stripPy ((joinSp (pySplit (removeSpacesAfter '、' (removeSpacesAfter '。'
        ((t.map han_to_zen).map h2z_kana))))).map
        fun c => if c = ' ' then '　' else c) := by
    simp only [process_japanese_text]
    rw [hbr]
  set t5 := removeSpacesAfter '、' (removeSpacesAfter '。'
    ((t.map han_to_zen).map h2z_kana)) with ht5
  have ht5sub : ∀ c ∈ t5, c ∈ (t.map han_to_zen).map h2z_kana := by
    intro c hc
    rw [ht5] at hc
    exact rmGo_subset '。' _ false c (rmGo_subset '、' _ false c hc)
  have hch5a : List.Chain' (fun a b => a = '。' → isPySpace b = false) t5 := by
    rw [ht5]
    exact rmGo_chain_preserve '、' '。' (by decide) _ false
      (rmGo_chain '。' (by decide) _ false)
  have hch5b : List.Chain' (fun a b => a = '、' → isPySpace b = false) t5 := by
    rw [ht5]
    exact rmGo_chain '、' (by decide) _ false
  have htoks : ∀ tok ∈ pySplit t5, tok ≠ [] ∧
      ∀ c ∈ tok, isPySpace c = false :=
    fun tok htok => ⟨(pySplit_tokens t5 tok htok).1,
      fun c hc => ((pySplit_tokens t5 tok htok).2 c hc).1⟩
  obtain ⟨hchain0, hhead0, hlast0⟩ := joinSp_props (pySplit t5) htoks
  have hchJa : List.Chain' (fun a b => a = '。' → isPySpace b = false)
      (joinSp (pySplit t5)) :=
    joinSp_pySplit_chain '。' (by decide) t5.length t5 (le_refl _) hch5a
  have hchJb : List.Chain' (fun a b => a = '、' → isPySpace b = false)
      (joinSp (pySplit t5)) :=
    joinSp_pySplit_chain '、' (by decide) t5.length t5 (le_refl _) hch5b
  have hreplws : ∀ c : Char,
      isPySpace (if c = ' ' then '　' else c) = isPySpace c := by
    intro c
    split
    · rename_i hc
      rw [hc]
      decide
    · rfl
  have hreplpunct : ∀ (c p : Char), isPySpace p = false → p ≠ '　' →
      (if c = ' ' then '　' else c) = p → c = p := by
    intro c p hpws hp3000 hcp
    by_cases hc : c = ' '
    · rw [if_pos hc] at hcp
      exact absurd hcp.symm hp3000
    · rw [if_neg hc] at hcp
      exact hcp
  set u := (joinSp (pySplit t5)).map fun c => if c = ' ' then '　' else c
    with hu
  have humem : ∀ c ∈ u, (c = '　' ∨ (isPySpace c = false ∧ c ∈ t5)) := by
    intro c hc
    rw [hu] at hc
    obtain ⟨d, hd, rfl⟩ := List.mem_map.mp hc
    rcases mem_joinSp (pySplit t5) d hd with rfl | ⟨tok, htok, hdt⟩
    · exact Or.inl (if_pos rfl)
    · have hdws : isPySpace d = false := ((pySplit_tokens t5 tok htok).2 d hdt).1
      have hdne : d ≠ ' ' := by
        intro hd2
        rw [hd2] at hdws
        simp [isPySpace] at hdws
      rw [if_neg hdne]
      exact Or.inr ⟨hdws, ((pySplit_tokens t5 tok htok).2 d hdt).2⟩
  have huchain : List.Chain'
      (fun a b => ¬(isPySpace a = true ∧ isPySpace b = true)) u := by
    rw [hu, List.chain'_map]
    refine hchain0.imp ?_
    intro a b hab
    rw [hreplws a, hreplws b]
    exact hab
  have huhead : ∀ w, u.head? = some w → isPySpace w = false := by
    intro w hw
    rw [hu, List.head?_map] at hw
    cases hj : (joinSp (pySplit t5)).head? with
    | none => rw [hj] at hw; simp at hw
    | some v =>
      rw [hj] at hw
      simp at hw
      rw [← hw, hreplws v]
      exact hhead0 v hj
  have hulast : ∀ w, u.getLast? = some w → isPySpace w = false := by
    intro w hw
    rw [hu, List.getLast?_map] at hw
    cases hj : (joinSp (pySplit t5)).getLast? with
    | none => rw [hj] at hw; simp at hw
    | some v =>
      rw [hj] at hw
      simp at hw
      rw [← hw, hreplws v]
      exact hlast0 v hj
  have hustrip : stripPy u = u := stripPy_eq_self u huhead hulast
  have hfinal : process_japanese_text t = u := by
    rw [hdef]
    exact hustrip
  rw [hfinal]
  refine ⟨?_, huchain, huhead, hulast, ?_, ?_, ?_, ?_⟩
  · intro c hc
    rcases humem c hc with rfl | ⟨-, hct5⟩
    · exact ⟨by decide, by decide⟩
    · exact ht2ok c (ht5sub c hct5)
  · intro c hc hws
    rcases humem c hc with rfl | ⟨hcf, -⟩
    · rfl
    · rw [hcf] at hws
      exact absurd hws (by simp)
  · rw [hu, NoWsAfter, List.chain'_map]
    refine hchJa.imp ?_
    intro a b hab hrep
    rw [hreplws b]
    exact hab (hreplpunct a '。' (by decide) (by decide) hrep)
  · rw [hu, NoWsAfter, List.chain'_map]
    refine hchJb.imp ?_
    intro a b hab hrep
    rw [hreplws b]
    exact hab (hreplpunct a '、' (by decide) (by decide) hrep)
  · intro hsp
    rcases humem ' ' hsp with h | ⟨hcf, -⟩
    · exact absurd h (by decide)
    · have : isPySpace ' ' = true := by decide
      rw [this] at hcf
      exact absurd hcf (by simp)

/-- Half-width ASCII letters and digits lie in the convertible range. -/
theorem isHalfAlnum_convertible {c : Char} (h : isHalfAlnum c = true) :
    isHanConvertible c = true := by
  simp only [isHalfAlnum, Bool.or_eq_true, Bool.and_eq_true,
    decide_eq_true_eq] at h
  simp only [isHanConvertible, Bool.and_eq_true, decide_eq_true_eq]
  omega

/-- C7, counterexample: on input `"あ 。"` the output is `"あ　。"` — the
ideographic space, a whitespace character, stands immediately *before* the
`。`, so the claim that whitespace adjacent to 。、！？ is removed so that
punctuation attaches directly to the preceding text is false (the code only
removes whitespace *after* 。 and 、, and does not handle ！ or ？ at all). -/
theorem c7_counterexample :
    process_japanese_text "あ 。".toList = "あ　。".toList ∧
    isPySpace '　' = true := by
  exact ⟨by decide, by decide⟩

/-- Unfolding equation for `process_japanese_text`, stated once so that the
definition can be made irreducible below (deep symbolic reduction of the
pipeline is prohibitively slow for the elaborator). -/
theorem process_japanese_text_unfold (t : List Char) :
    process_japanese_text t =
      stripPy ((joinSp (pySplit (removeSpacesAfter '、' (removeSpacesAfter '。'
        (applyBrackets ((t.map han_to_zen).map h2z_kana)))))).map
        fun c => if c = ' ' then '　' else c) := rfl

attribute [irreducible] process_japanese_text

/-- C7 (amended): for every input, Japanese normalization removes whitespace
immediately *following* `。` and `、` (whitespace before punctuation, and
around `！`/`？`, is not removed), and the output contains no half-width
ASCII letters or digits, no half-width (ASCII) space, and no two consecutive
ideographic spaces. -/
theorem c7_japanese_postconditions (t : List Char) :
    NoWsAfter '。' (process_japanese_text t) ∧
    NoWsAfter '、' (process_japanese_text t) ∧
    (∀ c ∈ process_japanese_text t, isHalfAlnum c = false) ∧
    ' ' ∉ process_japanese_text t ∧
    List.Chain' (fun a b => ¬(a = '　' ∧ b = '　'))
      (process_japanese_text t) := by
  have H := process_japanese_text_normal_form t
  have hok := H.1
  have hchain := H.2.1
  have hpa := H.2.2.2.2.2.1
  have hpb := H.2.2.2.2.2.2.1
  have hnosp := H.2.2.2.2.2.2.2
  refine ⟨hpa, hpb, ?_, hnosp, ?_⟩
  · intro c hc
    by_cases h : isHalfAlnum c = true
    · have := isHalfAlnum_convertible h
      rw [(hok c hc).1] at this
      exact absurd this (by simp)
    · simpa using h
  · refine hchain.imp ?_
    intro a b hab
    intro hcon
    apply hab
    rw [hcon.1, hcon.2]
    exact ⟨by decide, by decide⟩

/-- Japanese normalization is idempotent at the pipeline level: the second
pass leaves its own output unchanged stage by stage. -/
theorem process_japanese_text_idem (t : List Char) :
    process_japanese_text (process_japanese_text t) =
      process_japanese_text t := by
  have H := process_japanese_text_normal_form t
  have hok := H.1
  have hchain := H.2.1
  have hhd := H.2.2.1
  have hlast := H.2.2.2.1
  have hwsonly := H.2.2.2.2.1
  have hpa := H.2.2.2.2.2.1
  have hpb := H.2.2.2.2.2.2.1
  clear H
  set u := process_japanese_text t with hu
  have h1 : u.map han_to_zen = u := by
    have : ∀ c ∈ u, han_to_zen c = id c :=
      fun c hc => han_to_zen_eq_self (hok c hc).1
    rw [List.map_congr_left this, List.map_id]
  have h2 : u.map h2z_kana = u := by
    have : ∀ c ∈ u, h2z_kana c = id c :=
      fun c hc => h2z_kana_eq_self (hok c hc).2
    rw [List.map_congr_left this, List.map_id]
  have h3 : applyBrackets u = u :=
    applyBrackets_eq_self fun c hc => (hok c hc).1
  have h4 : removeSpacesAfter '。' u = u :=
    rmGo_eq_self '。' u false hpa (by intro hcon; exact absurd hcon (by simp))
  have h5 : removeSpacesAfter '、' u = u :=
    rmGo_eq_self '、' u false hpb (by intro hcon; exact absurd hcon (by simp))
  have h6 : (joinSp (pySplit u)).map (fun c => if c = ' ' then '　' else c) =
      u :=
    stage56_id u.length u (le_refl _) hchain hhd hlast hwsonly
  have h7 : stripPy u = u := stripPy_eq_self u hhd hlast
  calc process_japanese_text u
      = stripPy ((joinSp (pySplit (removeSpacesAfter '、'
          (removeSpacesAfter '。' (applyBrackets ((u.map han_to_zen).map
            h2z_kana)))))).map fun c => if c = ' ' then '　' else c) :=
        process_japanese_text_unfold u
    _ = u := by rw [h1, h2, h3, h4, h5, h6, h7]

/-- C6: Japanese normalization is idempotent at the public entry point:
`normalize(normalize(t, "ja"), "ja") = normalize(t, "ja")` for every text. -/
theorem c6_japanese_idempotent (engFn : List Char → List Char)
    (t : List Char) :
    process_text engFn (process_text engFn t "ja".toList) "ja".toList =
      process_text engFn t "ja".toList := by
  by_cases ht : t = []
  · subst ht
    rfl
  · have hinner : process_text engFn t "ja".toList =
        process_japanese_text t := by
      unfold process_text
      rw [if_neg ht, if_pos rfl]
    rw [hinner]
    unfold process_text
    by_cases ht2 : process_japanese_text t = []
    · rw [if_pos ht2]
    · rw [if_neg ht2, if_pos rfl]
      exact process_japanese_text_idem t

end Transcriber
